import Mathlib

/-
  Verification development for the power_and_utilities_daily repository.

  The two source files, scripts/build_brief.py and scripts/publish_episode.py,
  are shallowly embedded below.  Text is modelled as List Char (Python str over
  the ASCII range that actually occurs in this program, plus the em dash,
  en dash and ellipsis characters the code manipulates).  Python regular
  expression substitutions are embedded as direct recursive scanners that
  mirror the leftmost, non-overlapping, greedy semantics of re.sub for the
  particular fixed patterns the code uses.  Rational numbers stand in for the
  float arithmetic on datetime differences (all the claims under study concern
  the formula structure and order relations, which agree between the two).
-/

namespace PUD

/- #### Character classes (Python semantics on the ASCII range) -/

/-- Python whitespace for str.strip and the regex class backslash-s,
restricted to the six ASCII whitespace characters. -/
def pyWs (c : Char) : Bool :=
  c = ' ' || c = '\t' || c = '\n' || c = '\r' || c = Char.ofNat 11 || c = Char.ofNat 12

/-- Python regex word character (ASCII range): letters, digits, underscore. -/
def wordChar (c : Char) : Bool := c.isAlphanum || c = '_'

/-- Python str.lower on the ASCII range. -/
def asciiLower (c : Char) : Char :=
  if 'A' ≤ c ∧ c ≤ 'Z' then Char.ofNat (c.toNat + 32) else c

/-- Lowercase a text, character by character (Python str.lower, ASCII). -/
def lowerL (s : List Char) : List Char := s.map asciiLower

/- #### Generic text utilities -/

/-- Python str.lstrip (default whitespace). -/
def lstripL (s : List Char) : List Char := s.dropWhile pyWs

/-- Python str.rstrip (default whitespace). -/
def rstripL (s : List Char) : List Char := (s.reverse.dropWhile pyWs).reverse

/-- Python str.strip (default whitespace). -/
def stripL (s : List Char) : List Char := rstripL (lstripL s)

/-- Python substring membership test: needle in haystack. -/
def substr : List Char → List Char → Bool
  | needle, [] => needle.isEmpty
  | needle, c :: t => needle.isPrefixOf (c :: t) || substr needle t

/-- Python str.replace with a non-empty needle: replace every non-overlapping
occurrence, scanning left to right.  (The sources never call replace with an
empty needle; for an empty needle this embedding leaves the text unchanged.)
The fuel argument, always fed with the text length by the wrapper below,
makes the recursion structural; every step consumes at least one character,
so the fuel never runs out. -/
def replaceAllF (needle repl : List Char) : Nat → List Char → List Char
  | 0, s => s
  | _, [] => []
  | fuel + 1, c :: t =>
    if needle ≠ [] ∧ needle.isPrefixOf (c :: t) then
      repl ++ replaceAllF needle repl fuel (t.drop (needle.length - 1))
    else
      c :: replaceAllF needle repl fuel t

/-- Python str.replace, fuelled with the text length. -/
def replaceAll (needle repl s : List Char) : List Char :=
  replaceAllF needle repl s.length s

/-- Python text.split on the two-newline separator, mirroring str.split:
leftmost, non-overlapping matches; the empty text splits to one empty piece. -/
def splitSep : List Char → List (List Char)
  | [] => [[]]
  | [c] => [[c]]
  | a :: b :: t =>
    if a = '\n' ∧ b = '\n' then [] :: splitSep t
    else
      match splitSep (b :: t) with
      | p :: ps => (a :: p) :: ps
      | [] => [[a]]

/-- Number of non-overlapping occurrences of the two-newline separator found
by a left-to-right scan (so that splitSep yields countSep plus one pieces). -/
def countSep : List Char → Nat
  | [] => 0
  | [_] => 0
  | a :: b :: t =>
    if a = '\n' ∧ b = '\n' then countSep t + 1 else countSep (b :: t)

/-- Python separator.join for the two-newline separator. -/
def joinSep : List (List Char) → List Char
  | [] => []
  | [e] => e
  | e :: f :: l => e ++ '\n' :: '\n' :: joinSep (f :: l)

/-- Python text.split on a single newline. -/
def splitNL : List Char → List (List Char)
  | [] => [[]]
  | a :: t =>
    if a = '\n' then [] :: splitNL t
    else
      match splitNL t with
      | p :: ps => (a :: p) :: ps
      | [] => [[a]]

/-- Python newline.join. -/
def joinNL : List (List Char) → List Char
  | [] => []
  | [e] => e
  | e :: f :: l => e ++ '\n' :: joinNL (f :: l)

/-- Whether the text contains two adjacent newlines (an occurrence of the
paragraph separator). -/
def hasTwoNL : List Char → Bool
  | [] => false
  | [_] => false
  | a :: b :: t => (a = '\n' && b = '\n') || hasTwoNL (b :: t)

/-- A text containing at least one non-whitespace character. -/
def hasInk (l : List Char) : Prop := ∃ c ∈ l, pyWs c = false

/-- The subsequence of non-whitespace characters of a text, in order: the
payload that survives whitespace-only edits such as stripping, blank-line
joining and splitting. -/
def inkChars (l : List Char) : List Char := l.filter (fun c => ! pyWs c)

/-- The shape invariant the hard-cap loop preserves on generated scripts:
the stripped script splits on blank lines into at least three blocks, the
first starting with a non-whitespace character (the header line), and the
second and third each containing a non-whitespace character (the
disclaimer and the start of the first story block). -/
def keepsThreeBlocks (s : List Char) : Prop :=
  ∃ p0 p1 p2 rest, splitSep (stripL s) = p0 :: p1 :: p2 :: rest
    ∧ (∃ c, p0.head? = some c ∧ pyWs c = false) ∧ hasInk p1 ∧ hasInk p2

/-- Number of regex word-character runs, the length of re.findall of the
pattern word-boundary word-chars word-boundary, as used by word_count in
scripts/build_brief.py (fuelled with the text length; each step consumes at
least one character). -/
def wordCountF : Nat → List Char → Nat
  | 0, _ => 0
  | _, [] => 0
  | fuel + 1, c :: t =>
    if wordChar c then 1 + wordCountF fuel (t.dropWhile wordChar) else wordCountF fuel t

/-- The word counter of scripts/build_brief.py. -/
def wordCount (s : List Char) : Nat := wordCountF s.length s

/- #### Configuration tables of scripts/build_brief.py -/

/-- SOURCE_WEIGHT from scripts/build_brief.py. -/
def SOURCE_WEIGHT : List (List Char × Int) :=
  [(("E&E Energywire (Politico)").data, 30),
   (("Utility Dive").data, 28),
   (("Canary Media").data, 26),
   (("POWER Magazine").data, 22),
   (("Renewable Energy World").data, 20),
   (("CleanTechnica").data, 14)]

/-- SOURCE_WEIGHT.get(source, 10). -/
def sourceWeight (source : List Char) : Int :=
  match SOURCE_WEIGHT.lookup source with
  | some w => w
  | none => 10

/-- US_SIGNALS from scripts/build_brief.py. -/
def US_SIGNALS : List (List Char) :=
  [("ferc").data, ("department of energy").data, ("doe").data, ("epa").data, ("nerc").data,
   ("pjm").data, ("miso").data, ("ercot").data, ("caiso").data, ("nyiso").data, ("spp").data,
   ("iso-ne").data,
   ("united states").data, ("u.s.").data, ("us ").data,
   ("california").data, ("texas").data, ("new york").data, ("florida").data, ("illinois").data,
   ("pennsylvania").data,
   ("ohio").data, ("georgia").data, ("north carolina").data, ("michigan").data,
   ("new jersey").data, ("virginia").data,
   ("washington").data, ("arizona").data, ("massachusetts").data, ("tennessee").data,
   ("indiana").data, ("missouri").data,
   ("maryland").data, ("wisconsin").data, ("colorado").data, ("minnesota").data,
   ("south carolina").data, ("alabama").data,
   ("louisiana").data, ("kentucky").data, ("oregon").data, ("oklahoma").data,
   ("connecticut").data, ("utah").data, ("iowa").data,
   ("nevada").data, ("arkansas").data, ("mississippi").data, ("kansas").data,
   ("new mexico").data, ("nebraska").data,
   ("west virginia").data, ("idaho").data, ("hawaii").data, ("new hampshire").data,
   ("maine").data, ("montana").data,
   ("rhode island").data, ("delaware").data, ("south dakota").data, ("north dakota").data,
   ("alaska").data, ("vermont").data]

/-- IMPACT from scripts/build_brief.py. -/
def IMPACT : List (List Char) :=
  [("transmission").data, ("interconnection").data, ("rate case").data,
   ("public utility commission").data,
   ("grid").data, ("reliability").data, ("outage").data, ("blackout").data, ("wildfire").data,
   ("pipeline").data, ("lng").data, ("nuclear").data, ("small modular reactor").data,
   ("smr").data,
   ("data center").data, ("load growth").data, ("capacity market").data,
   ("resource adequacy").data,
   ("tariff").data, ("rulemaking").data, ("order").data, ("permit").data, ("financing").data,
   ("acquisition").data, ("merger").data]

/-- WORD_TARGET from scripts/build_brief.py. -/
def WORD_TARGET : Nat := 2100

/-- WORD_HARD_CAP from scripts/build_brief.py. -/
def WORD_HARD_CAP : Nat := 2200

/- #### Scorer (score_item in scripts/build_brief.py) -/

/-- Python int() applied to a (here rational) number: truncation toward zero. -/
def pytrunc (q : ℚ) : ℤ := if 0 ≤ q then ⌊q⌋ else -⌊-q⌋

/-- Elapsed hours between publish instant and now, in seconds-based rational
time: (now_utc - published).total_seconds() / 3600.0. -/
def ageHours (published now_utc : ℚ) : ℚ := (now_utc - published) / 3600

/-- The title-and-summary blob the keyword matches run over:
the lowercase of title, one space, summary. -/
def blobOf (title summary : List Char) : List Char :=
  lowerL (title ++ ' ' :: summary)

/-- The recency contribution of score_item: max(0, int(40 - age_hours)). -/
def recencyOf (published now_utc : ℚ) : ℤ :=
  max 0 (pytrunc (40 - ageHours published now_utc))

/-- The regional-relevance contribution of score_item: 20 if any US signal
occurs in the blob, else 0. -/
def usOf (title summary : List Char) : ℤ :=
  if US_SIGNALS.any (fun k => substr k (blobOf title summary)) then 20 else 0

/-- The impact contribution of score_item:
min(20, 4 times the number of matching impact keywords). -/
def impactOf (title summary : List Char) : ℤ :=
  min 20 (4 * (IMPACT.countP (fun k => substr k (blobOf title summary)) : ℤ))

/-- score_item from scripts/build_brief.py, embedded line by line. -/
def score_item (source title summary : List Char) (published now_utc : ℚ) : ℤ :=
  let base := sourceWeight source
  let age_hours := (now_utc - published) / 3600
  let recency := max 0 (pytrunc (40 - age_hours))
  let blob := lowerL (title ++ ' ' :: summary)
  let us := if US_SIGNALS.any (fun k => substr k blob) then 20 else 0
  let impact := min 20 (4 * (IMPACT.countP (fun k => substr k blob) : ℤ))
  base + recency + us + impact

/-- is_us_relevant from scripts/build_brief.py. -/
def is_us_relevant (title summary : List Char) : Bool :=
  US_SIGNALS.any (fun k => substr k (lowerL (title ++ ' ' :: summary)))

/- #### textify (scripts/build_brief.py) -/

/-- The markup-stripping pass of textify: the regex substitution replacing
each angle-bracketed tag (one or more non-close-bracket characters between
the brackets) with a single space (fuelled with the text length). -/
def stripTagsF : Nat → List Char → List Char
  | 0, s => s
  | _, [] => []
  | fuel + 1, c :: t =>
    if c = '<' ∧ t.takeWhile (fun d => d != '>') ≠ [] ∧ t.dropWhile (fun d => d != '>') ≠ [] then
      ' ' :: stripTagsF fuel ((t.dropWhile (fun d => d != '>')).drop 1)
    else
      c :: stripTagsF fuel t

/-- The markup-stripping pass of textify. -/
def stripTags (s : List Char) : List Char := stripTagsF s.length s

/-- The whitespace-collapsing pass of textify: every whitespace run becomes
one space (fuelled with the text length). -/
def collapseWsF : Nat → List Char → List Char
  | 0, s => s
  | _, [] => []
  | fuel + 1, c :: t =>
    if pyWs c then ' ' :: collapseWsF fuel (t.dropWhile pyWs) else c :: collapseWsF fuel t

/-- The whitespace-collapsing pass of textify. -/
def collapseWs (s : List Char) : List Char := collapseWsF s.length s

/-- textify from scripts/build_brief.py: strip tags, collapse whitespace,
strip the ends. -/
def textify (s : List Char) : List Char := stripL (collapseWs (stripTags s))

/- #### URL canonicalizer (canonicalize in scripts/build_brief.py)

The urllib.parse helpers urlparse, parse_qsl, urlencode and urlunparse are
embedded below for the ASCII range (percent escapes decode to single bytes;
the sources only ever feed ASCII URLs through them). -/

/-- First-occurrence split: some (before, after) when the character occurs. -/
def splitFirst (c : Char) : List Char → Option (List Char × List Char)
  | [] => none
  | a :: t =>
    if a = c then some ([], t)
    else
      match splitFirst c t with
      | some (x, y) => some (a :: x, y)
      | none => none

/-- Index of the last occurrence of a character. -/
def lastIdxOf (c : Char) : List Char → Option Nat
  | [] => none
  | a :: t =>
    match lastIdxOf c t with
    | some i => some (i + 1)
    | none => if a = c then some 0 else none

/-- Python str.split on a single-character separator. -/
def splitChar (sep : Char) : List Char → List (List Char)
  | [] => [[]]
  | a :: t =>
    if a = sep then [] :: splitChar sep t
    else
      match splitChar sep t with
      | p :: ps => (a :: p) :: ps
      | [] => [[a]]

/-- Join with a single-character separator. -/
def joinChar (sep : Char) : List (List Char) → List Char
  | [] => []
  | [e] => e
  | e :: l => e ++ sep :: joinChar sep l

/-- Characters allowed in a URL scheme after the first letter. -/
def schemeChar (c : Char) : Bool := c.isAlphanum || c = '+' || c = '-' || c = '.'

/-- Characters that terminate the network-location part. -/
def netlocStop (c : Char) : Bool := c = '/' || c = '?' || c = '#'

/-- The parsed-URL record produced by urlparse. -/
structure UrlParts where
  scheme : List Char
  netloc : List Char
  path : List Char
  params : List Char
  query : List Char
  fragment : List Char
deriving DecidableEq

/-- The schemes for which urlparse splits params off the path
(uses_params in urllib.parse). -/
def usesParams : List (List Char) :=
  [[], ("ftp").data, ("hdl").data, ("prospero").data, ("http").data, ("imap").data,
   ("https").data, ("shttp").data, ("rtsp").data, ("rtspu").data, ("sip").data,
   ("sips").data, ("mms").data, ("sftp").data, ("tel").data]

/-- urllib.parse.urlparse, embedded: strip unsafe edge characters, remove
tab, carriage return and newline, split off scheme, netloc, fragment, query
and params.  An unmatched square bracket in the netloc raises (error case),
which canonicalize catches. -/
def urlparseE (url0 : List Char) : Except Unit UrlParts :=
  let url1 := ((url0.dropWhile (fun c => c.toNat ≤ 32)).reverse.dropWhile
      (fun c => c.toNat ≤ 32)).reverse
  let url2 := url1.filter (fun c => !(c = '\t' || c = '\r' || c = '\n'))
  let sr :=
    match splitFirst ':' url2 with
    | some (before, after) =>
      if before ≠ [] ∧ (before.headD ' ').isAlpha ∧ before.all schemeChar then
        (lowerL before, after)
      else ([], url2)
    | none => ([], url2)
  let scheme := sr.1
  let rest := sr.2
  let nr :=
    if (['/', '/']).isPrefixOf rest then
      ((rest.drop 2).takeWhile (fun c => ! netlocStop c),
       (rest.drop 2).dropWhile (fun c => ! netlocStop c))
    else ([], rest)
  let netloc := nr.1
  let rest2 := nr.2
  if (netloc.contains '[' ∧ ¬ netloc.contains ']')
      ∨ (netloc.contains ']' ∧ ¬ netloc.contains '[') then
    .error ()
  else
    let fr :=
      match splitFirst '#' rest2 with
      | some (a, b) => (a, b)
      | none => (rest2, [])
    let qr :=
      match splitFirst '?' fr.1 with
      | some (a, b) => (a, b)
      | none => (fr.1, [])
    let rest4 := qr.1
    let pp :=
      if usesParams.contains scheme ∧ rest4.contains ';' then
        match lastIdxOf '/' rest4 with
        | some j =>
          match splitFirst ';' (rest4.drop j) with
          | some (a, b) => (rest4.take j ++ a, b)
          | none => (rest4, [])
        | none =>
          match splitFirst ';' rest4 with
          | some (a, b) => (a, b)
          | none => (rest4, [])
      else (rest4, [])
    .ok ⟨scheme, netloc, pp.1, pp.2, qr.2, fr.2⟩

/-- Hexadecimal digit test. -/
def isHexDig (c : Char) : Bool :=
  c.isDigit || ('a' ≤ c ∧ c ≤ 'f') || ('A' ≤ c ∧ c ≤ 'F')

/-- Hexadecimal digit value. -/
def hexVal (c : Char) : Nat :=
  if c.isDigit then c.toNat - 48
  else if 'a' ≤ c ∧ c ≤ 'f' then c.toNat - 87
  else c.toNat - 55

/-- Percent-escape decoding (single-byte escapes; an invalid escape is left
in place, as urllib.parse.unquote does). -/
def unquotePercent : List Char → List Char
  | '%' :: a :: b :: t =>
    if isHexDig a ∧ isHexDig b then
      Char.ofNat (16 * hexVal a + hexVal b) :: unquotePercent t
    else
      '%' :: unquotePercent (a :: b :: t)
  | c :: t => c :: unquotePercent t
  | [] => []

/-- urllib.parse.unquote_plus: plus signs become spaces, then percent
escapes are decoded. -/
def unquote_plus (s : List Char) : List Char :=
  unquotePercent (s.map (fun c => if c = '+' then ' ' else c))

/-- urllib.parse.parse_qsl with keep_blank_values=True: split the query on
ampersands, skip empty pieces, split each piece at the first equals sign
(a piece without one keeps a blank value), unquoting names and values. -/
def parse_qsl (qs : List Char) : List (List Char × List Char) :=
  (splitChar '&' qs).foldr
    (fun pair acc =>
      if pair = [] then acc
      else
        match splitFirst '=' pair with
        | some (n, v) => (unquote_plus n, unquote_plus v) :: acc
        | none => (unquote_plus pair, []) :: acc)
    []

/-- The characters urllib.parse never quotes. -/
def alwaysSafeChar (c : Char) : Bool :=
  c.isAlphanum || c = '_' || c = '.' || c = '-' || c = '~'

/-- Upper-case hexadecimal digit of a value below 16. -/
def hexDigitUpper (n : Nat) : Char :=
  if n < 10 then Char.ofNat (48 + n) else Char.ofNat (55 + n)

/-- Percent-encode one byte. -/
def percentEncode (c : Char) : List Char :=
  ['%', hexDigitUpper (c.toNat / 16 % 16), hexDigitUpper (c.toNat % 16)]

/-- urllib.parse.quote_plus on the ASCII range: safe characters pass
through, the space becomes a plus, everything else is percent-encoded. -/
def quote_plus (s : List Char) : List Char :=
  s.foldr
    (fun c acc =>
      (if alwaysSafeChar c then [c] else if c = ' ' then ['+'] else percentEncode c) ++ acc)
    []

/-- urllib.parse.urlencode over an association list, using quote_plus. -/
def urlencodeL (l : List (List Char × List Char)) : List Char :=
  joinChar '&' (l.map (fun kv => quote_plus kv.1 ++ '=' :: quote_plus kv.2))

/-- urllib.parse.urlunparse composed with urlunsplit. -/
def urlunparse (p : UrlParts) : List Char :=
  let url := if p.params ≠ [] then p.path ++ ';' :: p.params else p.path
  let url :=
    if p.netloc ≠ [] ∨ (['/', '/']).isPrefixOf url then
      '/' :: '/' :: (p.netloc ++
        (if url ≠ [] ∧ ¬ (['/']).isPrefixOf url then '/' :: url else url))
    else url
  let url := if p.scheme ≠ [] then p.scheme ++ ':' :: url else url
  let url := if p.query ≠ [] then url ++ '?' :: p.query else url
  if p.fragment ≠ [] then url ++ '#' :: p.fragment else url

/-- The tracking-parameter deny-list of canonicalize. -/
def trackingKeys : List (List Char) :=
  [("utm_source").data, ("utm_medium").data, ("utm_campaign").data,
   ("utm_term").data, ("utm_content").data, ("fbclid").data, ("gclid").data]

/-- canonicalize from scripts/build_brief.py: drop tracking query
parameters and reassemble; on a parse error return the URL unchanged. -/
def canonicalize (url : List Char) : List Char :=
  match urlparseE url with
  | .error _ => url
  | .ok p =>
    let qs := (parse_qsl p.query).filter (fun kv => ! trackingKeys.contains (lowerL kv.1))
    urlunparse { p with query := urlencodeL qs }

/- #### The entry-collection loop of main in scripts/build_brief.py -/

/-- One raw feed entry as exposed by the fetch collaborator: its link, raw
title, raw summary markup, and the parsed publish instant (none when no
date field parses, in which case main discards the entry). -/
structure RawEntry where
  link : List Char
  title : List Char
  summary : List Char
  published : Option ℚ
deriving DecidableEq

/-- One surviving candidate item, as appended by main. -/
structure ScoredItem where
  source : List Char
  title : List Char
  url : List Char
  published : ℚ
  summary : List Char
  score : ℤ
deriving DecidableEq

/-- The body of the per-entry loop in main: canonicalize and dedupe the
URL (the URL enters the seen set before the later gates run), discard
undated entries, entries older than the 30-hour window, and entries
failing the regional-relevance gate; score and append the survivors. -/
def processEntry (now_utc : ℚ) (source : List Char)
    (st : List ScoredItem × List (List Char)) (e : RawEntry) :
    List ScoredItem × List (List Char) :=
  let items := st.1
  let seen := st.2
  let url := canonicalize e.link
  if url = [] ∨ seen.contains url then st
  else
    let seen := url :: seen
    let title := stripL e.title
    let summary := textify e.summary
    match e.published with
    | none => (items, seen)
    | some published =>
      if published < now_utc - 30 * 3600 then (items, seen)
      else if ¬ is_us_relevant title summary then (items, seen)
      else
        (items ++ [⟨source, title, url, published, summary,
          score_item source title summary published now_utc⟩], seen)

/-- The nested feed/entry loop of main, producing the candidate item list. -/
def collectItems (now_utc : ℚ) (feeds : List (List Char × List RawEntry)) :
    List ScoredItem :=
  (feeds.foldl
    (fun st fe => fe.2.foldl (processEntry now_utc fe.1) st)
    ([], [])).1

/- #### Script assembly and word budget (main in scripts/build_brief.py) -/

/-- One top-ranked item as consumed by the script-building section of main
(title, source, canonical URL and plain-text summary). -/
structure TopItem where
  title : List Char
  source : List Char
  url : List Char
  summary : List Char
deriving DecidableEq

/-- The summary trim step: if the summary is longer than 600 characters,
cut at 600, back off to the last space, and append an ellipsis. -/
def truncSummary (s : List Char) : List Char :=
  if 600 < s.length then
    (match lastIdxOf ' ' (s.take 600) with
     | some i => (s.take 600).take i
     | none => s.take 600) ++ ['…']
  else s

/-- One story block: the numbered headline line, the link line, the trimmed
summary, and a trailing empty line, joined with newlines. -/
def storyBlock (idx : Nat) (it : TopItem) : List Char :=
  joinNL
    [(toString idx).data ++ (". ").data ++ it.title ++ (" — ").data ++ it.source,
     ("Link: ").data ++ it.url,
     truncSummary it.summary,
     []]

/-- The four header lines that main seeds the script with. -/
def headerLines (date_label : List Char) : List (List Char) :=
  [("Power, Utilities & Infrastructure — Daily Brief (").data ++ date_label ++ [')'],
   [],
   ("This is an automated, AI-generated audio briefing. Sources and links are in the show notes.").data,
   []]

/-- enumerate(top, 1). -/
def enum1 : Nat → List TopItem → List (Nat × TopItem)
  | _, [] => []
  | i, a :: l => (i, a) :: enum1 (i + 1) l

/-- The packing loop of main: append story blocks in order, breaking as
soon as the candidate would push the word count past WORD_TARGET while more
than six lines are already present. -/
def packLoop (lines : List (List Char)) : List (Nat × TopItem) → List (List Char)
  | [] => lines
  | (idx, it) :: rest =>
    let candidate := storyBlock idx it
    if WORD_TARGET < wordCount (joinNL lines ++ '\n' :: candidate) ∧ 6 < lines.length then
      lines
    else
      packLoop (lines ++ [candidate]) rest

/-- The hard-cap while loop of main, with explicit fuel standing in for the
while condition: while the word count exceeds WORD_HARD_CAP, split the
stripped script on blank lines, stop if at most three blocks remain, else
drop the last block, re-join and continue.  none signals exhausted fuel;
the termination theorem below shows that fuel equal to the initial number
of blocks always suffices, so the fueled loop computes exactly what the
source loop computes. -/
def hardCapFuel : Nat → List Char → Option (List Char)
  | 0, _ => none
  | fuel + 1, script =>
    if WORD_HARD_CAP < wordCount script then
      let parts := splitSep (stripL script)
      if parts.length ≤ 3 then some script
      else hardCapFuel fuel (joinSep parts.dropLast ++ ['\n'])
    else some script

/-- The hard-cap loop run with sufficient fuel. -/
def hard_cap (script : List Char) : List Char :=
  (hardCapFuel (splitSep (stripL script)).length script).getD script

/-- The script-building section of main: header lines, greedy packing of
story blocks, newline join, hard-cap enforcement. -/
def build_script (date_label : List Char) (top : List TopItem) : List Char :=
  hard_cap (joinNL (packLoop (headerLines date_label) (enum1 1 top)))

/-- A 2250-word title (each word a single letter), used to exercise the
hard-cap loop on a script whose minimal header-plus-one-story skeleton
already exceeds the cap. -/
def hugeTitle : List Char := (List.replicate 2250 ('w' :: ' ' :: [])).flatten

/- #### Speech normalizer (speech_optimize in scripts/publish_episode.py) -/

/-- Length of the URL match of the pattern http, optional s, separator,
one or more non-whitespace characters, when it matches at the head. -/
def urlMatchLen (l : List Char) : Option Nat :=
  if (("https://").data).isPrefixOf l then
    let r := (l.drop 8).takeWhile (fun c => ! pyWs c)
    if r ≠ [] then some (8 + r.length) else none
  else if (("http://").data).isPrefixOf l then
    let r := (l.drop 7).takeWhile (fun c => ! pyWs c)
    if r ≠ [] then some (7 + r.length) else none
  else none

/-- The URL-removal substitution of speech_optimize (fuelled with the text
length; every step consumes at least one character). -/
def stripURLsF : Nat → List Char → List Char
  | 0, s => s
  | _, [] => []
  | fuel + 1, c :: t =>
    match urlMatchLen (c :: t) with
    | some n => stripURLsF fuel (t.drop (n - 1))
    | none => c :: stripURLsF fuel t

/-- The URL-removal substitution of speech_optimize. -/
def stripURLs (s : List Char) : List Char := stripURLsF s.length s

/-- Space or tab. -/
def spaceTab (c : Char) : Bool := c = ' ' || c = '\t'

/-- The space-and-tab collapsing substitution of speech_optimize (fuelled
with the text length). -/
def collapseSpaceTabF : Nat → List Char → List Char
  | 0, s => s
  | _, [] => []
  | fuel + 1, c :: t =>
    if spaceTab c then ' ' :: collapseSpaceTabF fuel (t.dropWhile spaceTab)
    else c :: collapseSpaceTabF fuel t

/-- The space-and-tab collapsing substitution of speech_optimize. -/
def collapseSpaceTab (s : List Char) : List Char := collapseSpaceTabF s.length s

/-- The blank-line normalizing substitution of speech_optimize: a newline
followed by a whitespace run containing at least one further newline is
replaced, up to the last newline of the run, by exactly two newlines
(fuelled with the text length). -/
def blankCollapseF : Nat → List Char → List Char
  | 0, s => s
  | _, [] => []
  | fuel + 1, c :: t =>
    if c = '\n' then
      match lastIdxOf '\n' (t.takeWhile pyWs) with
      | some i => '\n' :: '\n' :: blankCollapseF fuel (t.drop (i + 1))
      | none => c :: blankCollapseF fuel t
    else c :: blankCollapseF fuel t

/-- The blank-line normalizing substitution of speech_optimize. -/
def blankCollapse (s : List Char) : List Char := blankCollapseF s.length s

/-- The headline step of speech_optimize: strip the first line and append
an ellipsis of three dots. -/
def addHeadlineDots (s : List Char) : List Char :=
  joinNL
    (match splitNL s with
     | [] => []
     | l :: ls => (stripL l ++ ("...").data) :: ls)

/-- The pause-cue substitution of speech_optimize: each blank-line break
(same match shape as blankCollapse, ending at the last newline of the run)
becomes two newlines, three dots, two newlines (fuelled with the text
length). -/
def pauseInsF : Nat → List Char → List Char
  | 0, s => s
  | _, [] => []
  | fuel + 1, c :: t =>
    if c = '\n' then
      match lastIdxOf '\n' (t.takeWhile pyWs) with
      | some i => ("\n\n...\n\n").data ++ pauseInsF fuel (t.drop (i + 1))
      | none => c :: pauseInsF fuel t
    else c :: pauseInsF fuel t

/-- The pause-cue substitution of speech_optimize. -/
def pauseIns (s : List Char) : List Char := pauseInsF s.length s

/-- The story-transition substitution of speech_optimize: at two newlines,
digits, a dot and one whitespace character, stories other than number one
get a transition cue inserted; the matched text, with its leading newlines
stripped, follows the cue (fuelled with the text length). -/
def transitionInsF : Nat → List Char → List Char
  | 0, s => s
  | _, [] => []
  | fuel + 1, '\n' :: '\n' :: t =>
    let ds := t.takeWhile Char.isDigit
    if ds ≠ [] then
      match t.drop ds.length with
      | '.' :: w :: rest =>
        if pyWs w then
          (if ds = ['1'] then '\n' :: '\n' :: (ds ++ ['.', w])
           else ("\n\nNext story...\n\n").data ++ ds ++ ['.', w]) ++ transitionInsF fuel rest
        else '\n' :: transitionInsF fuel ('\n' :: t)
      | _ => '\n' :: transitionInsF fuel ('\n' :: t)
    else '\n' :: transitionInsF fuel ('\n' :: t)
  | fuel + 1, c :: t => c :: transitionInsF fuel t

/-- The story-transition substitution of speech_optimize. -/
def transitionIns (s : List Char) : List Char := transitionInsF s.length s

/-- The dash replacement of speech_optimize: em dash then en dash, each to
a comma and space. -/
def dashReplace (s : List Char) : List Char :=
  replaceAll (['–']) ((", ").data) (replaceAll (['—']) ((", ").data) s)

/-- The whitespace-before-newline substitution of speech_optimize: a
whitespace run of length at least two ending in a newline collapses to a
single newline (the run is consumed up to its last newline; fuelled with
the text length). -/
def wsBeforeNLF : Nat → List Char → List Char
  | 0, s => s
  | _, [] => []
  | fuel + 1, c :: t =>
    if pyWs c then
      match lastIdxOf '\n' ((c :: t).takeWhile pyWs) with
      | some i =>
        if 1 ≤ i then '\n' :: wsBeforeNLF fuel (t.drop i) else c :: wsBeforeNLF fuel t
      | none => c :: wsBeforeNLF fuel t
    else c :: wsBeforeNLF fuel t

/-- The whitespace-before-newline substitution of speech_optimize. -/
def wsBeforeNL (s : List Char) : List Char := wsBeforeNLF s.length s

/-- The final newline-run substitution of speech_optimize: runs of three
or more newlines become exactly two (fuelled with the text length). -/
def collapse3NLF : Nat → List Char → List Char
  | 0, s => s
  | _, [] => []
  | fuel + 1, c :: t =>
    if c = '\n' ∧ 2 ≤ (t.takeWhile (fun d => d == '\n')).length then
      '\n' :: '\n' :: collapse3NLF fuel (t.drop (t.takeWhile (fun d => d == '\n')).length)
    else c :: collapse3NLF fuel t

/-- The final newline-run substitution of speech_optimize. -/
def collapse3NL (s : List Char) : List Char := collapse3NLF s.length s

/-- speech_optimize from scripts/publish_episode.py, embedded step by step
in source order. -/
def speech_optimize (text : List Char) : List Char :=
  let t1 := replaceAll ['\r', '\n'] ['\n'] text
  let t2 := stripURLs t1
  let t3 := replaceAll (("---- SCRIPT START ----").data) [] t2
  let t4 := replaceAll (("---- SCRIPT END ----").data) [] t3
  let t5 := collapseSpaceTab t4
  let t6 := stripL (blankCollapse t5)
  let t7 := addHeadlineDots t6
  let t8 := pauseIns t7
  let t9 := transitionIns t8
  let t10 := dashReplace t9
  let t11 := wsBeforeNL t10
  stripL (collapse3NL t11)

/- #### Chunker (chunk_text in scripts/publish_episode.py) -/

/-- OPENAI_MAX_CHARS from scripts/publish_episode.py. -/
def OPENAI_MAX_CHARS : Nat := 4096

/-- The hard-split while loop of chunk_text: while the paragraph exceeds
the limit, emit its first max_chars characters and continue on the rest.
At limit zero the source loop would not terminate; that case (unreachable
at the call site, where the limit is 4096) returns the paragraph whole.
Fuelled; for any positive limit, fuel equal to the paragraph length always
suffices, since each round removes at least one character. -/
def hardSplitF : Nat → Nat → List Char → List (List Char) × List Char
  | 0, _, p => ([], p)
  | fuel + 1, max_chars, p =>
    if max_chars < p.length then
      if max_chars = 0 then ([], p)
      else
        let pr := hardSplitF fuel max_chars (p.drop max_chars)
        (p.take max_chars :: pr.1, pr.2)
    else ([], p)

/-- The hard-split while loop of chunk_text, fuelled with the paragraph
length. -/
def hardSplit (max_chars : Nat) (p : List Char) : List (List Char) × List Char :=
  hardSplitF p.length max_chars p

/-- The paragraph-accumulation loop of chunk_text over the blank-line
split, carrying the chunk list and the current accumulator. -/
def chunkLoop (max_chars : Nat) (st : List (List Char) × List Char) :
    List (List Char) → List (List Char) × List Char
  | [] => st
  | p :: ps =>
    let candidate := stripL (st.2 ++ (if st.2 ≠ [] then ['\n', '\n'] else []) ++ p)
    if candidate.length ≤ max_chars then chunkLoop max_chars (st.1, candidate) ps
    else
      let ch1 := if st.2 ≠ [] then st.1 ++ [st.2] else st.1
      let hs := hardSplit max_chars p
      chunkLoop max_chars (ch1 ++ hs.1, hs.2) ps

/-- chunk_text from scripts/publish_episode.py: split on blank lines,
accumulate paragraphs up to the limit, hard-split oversized paragraphs,
append the last accumulator, and drop whitespace-only chunks. -/
def chunk_text (text : List Char) (max_chars : Nat) : List (List Char) :=
  let r := chunkLoop max_chars ([], []) (splitSep text)
  let chunks := if r.2 ≠ [] then r.1 ++ [r.2] else r.1
  chunks.filter (fun c => ! (stripL c).isEmpty)

/- #### TTS renderer with fallback (scripts/publish_episode.py, main) -/

/-- Outcome of one primary-provider call, as classified by
openai_tts_mp3: success, the distinguished quota condition, or any other
failure. -/
inductive PrimOutcome
  | success
  | quota
  | failure
deriving DecidableEq

/-- An HTTP response from the primary provider: ok means urlopen returned
bytes; otherwise code and body describe the HTTPError. -/
structure HttpResp where
  ok : Bool
  code : Nat
  body : List Char

/-- The error classification of openai_tts_mp3: HTTP 429 with a quota
marker in the body raises the distinguished quota error; any other error
is a generic failure. -/
def openaiTtsOutcome (r : HttpResp) : PrimOutcome :=
  if r.ok then .success
  else if r.code = 429 ∧
      (substr (("insufficient_quota").data) r.body
        ∨ substr (("exceeded your current quota").data) r.body) then
    .quota
  else .failure

/-- An observable event of the TTS run: the i-th primary-provider call, or
the single offline fallback synthesis. -/
inductive TtsEvent
  | primaryCall (idx : Nat)
  | fallbackCall
deriving DecidableEq

/-- The per-chunk loop of generate_mp3_openai: one primary call per chunk,
stopping at the first raised outcome (which propagates as the exception of
the whole generation). -/
def genOpenaiCalls (oracle : Nat → HttpResp) : Nat → List (List Char) →
    List TtsEvent × Option PrimOutcome
  | _, [] => ([], none)
  | i, _ :: cs =>
    match openaiTtsOutcome (oracle i) with
    | .success =>
      let r := genOpenaiCalls oracle (i + 1) cs
      (.primaryCall i :: r.1, r.2)
    | o => ([.primaryCall i], some o)

/-- The TTS section of main: chunk the speech text, try the primary
provider per chunk, and on a raised quota (or any other) error invoke the
offline fallback exactly once on the full text. -/
def ttsRender (oracle : Nat → HttpResp) (speech_text : List Char) : List TtsEvent :=
  let chunks := chunk_text speech_text OPENAI_MAX_CHARS
  let r := genOpenaiCalls oracle 0 chunks
  match r.2 with
  | none => r.1
  | some _ => r.1 ++ [.fallbackCall]

/- #### Feed publisher (update_feed_xml in scripts/publish_episode.py) -/

/-- Index of the first occurrence of a needle. -/
def findSub (needle : List Char) : List Char → Option Nat
  | [] => if needle = [] then some 0 else none
  | c :: t =>
    if needle.isPrefixOf (c :: t) then some 0
    else (findSub needle t).map (· + 1)

/-- The lastBuildDate substitution: each shortest span from an opening
lastBuildDate tag to the next closing one is rewritten around the new
timestamp (the non-greedy dot-all regex of update_feed_xml; fuelled with
the document length). -/
def subLastBuildDateF (newVal : List Char) : Nat → List Char → List Char
  | 0, s => s
  | _, [] => []
  | fuel + 1, c :: t =>
    if (("<lastBuildDate>").data).isPrefixOf (c :: t) then
      match findSub (("</lastBuildDate>").data) (t.drop 14) with
      | some i =>
        ("<lastBuildDate>").data ++ newVal ++ ("</lastBuildDate>").data
          ++ subLastBuildDateF newVal fuel ((t.drop 14).drop (i + 16))
      | none => c :: subLastBuildDateF newVal fuel t
    else c :: subLastBuildDateF newVal fuel t

/-- The lastBuildDate substitution of update_feed_xml. -/
def subLastBuildDate (newVal xml : List Char) : List Char :=
  subLastBuildDateF newVal xml.length xml

/-- escape_xml from scripts/publish_episode.py: the five replacements in
source order. -/
def escape_xml (s : List Char) : List Char :=
  replaceAll ['\''] (("&apos;").data)
    (replaceAll ['"'] (("&quot;").data)
      (replaceAll ['>'] (("&gt;").data)
        (replaceAll ['<'] (("&lt;").data)
          (replaceAll ['&'] (("&amp;").data) s))))

/-- The placeholder anchor marker update_feed_xml searches for. -/
def FEED_MARKER : List Char := ("<!-- Placeholder episode").data

/-- The item block update_feed_xml splices in, byte for byte (pubDateStr
stands for the RFC 2822 rendering of the publish instant that
email.utils.format_datetime produces, an external collaborator). -/
def itemXml (title description pubDateStr guid enclosure_url : List Char)
    (enclosure_len : Nat) : List Char :=
  ("\n    <item>\n      <title>").data ++ escape_xml title
    ++ ("</title>\n      <description>").data ++ escape_xml description
    ++ ("</description>\n      <itunes:summary>").data ++ escape_xml description
    ++ ("</itunes:summary>\n      <pubDate>").data ++ pubDateStr
    ++ ("</pubDate>\n      <guid isPermaLink=\"false\">").data ++ escape_xml guid
    ++ ("</guid>\n      <enclosure url=\"").data ++ escape_xml enclosure_url
    ++ ("\" length=\"").data ++ (toString enclosure_len).data
    ++ ("\" type=\"audio/mpeg\" />\n    </item>\n").data

/-- update_feed_xml from scripts/publish_episode.py as a function from the
current feed document to either the document that gets written (ok) or the
raised error (error; in that case the function returns before any write,
so the document on disk keeps its previous content).  The timestamp is
rewritten in memory first; a document already containing the guid or the
enclosure URL is written back with only that rewrite; otherwise a missing
anchor raises, and an anchored document has the item block spliced in
before every occurrence of the anchor. -/
def update_feed_xml (title description pubDateStr enclosure_url : List Char)
    (enclosure_len : Nat) (guid : List Char) (xml : List Char) :
    Except (List Char) (List Char) :=
  let xml1 := subLastBuildDate pubDateStr xml
  if substr guid xml1 ∨ substr enclosure_url xml1 then
    .ok xml1
  else
    let item_xml := itemXml title description pubDateStr guid enclosure_url enclosure_len
    if ¬ substr FEED_MARKER xml1 then
      .error (("Could not find placeholder marker in feed.xml. Keep the placeholder comment so we can insert new items safely.").data)
    else
      .ok (replaceAll FEED_MARKER (item_xml ++ ("    ").data ++ FEED_MARKER) xml1)

/- ### Lemmas and theorems -/

/- #### Scorer bounds (claim C6) -/

theorem pytrunc_nonpos {q : ℚ} (h : q ≤ 0) : pytrunc q ≤ 0 := by
  unfold pytrunc
  split
  · have hq : q = 0 := le_antisymm h (by assumption)
    simp [hq]
  · have h0 : (0 : ℚ) ≤ -q := by linarith
    have := Int.floor_nonneg.mpr h0
    omega

theorem pytrunc_le_forty {q : ℚ} (h : q ≤ 40) : pytrunc q ≤ 40 := by
  unfold pytrunc
  split
  · have h1 := Int.floor_le_floor (α := ℚ) h
    have h2 : ⌊(40 : ℚ)⌋ = 40 := by norm_num
    omega
  · rename_i hq
    have h0 : (0 : ℚ) ≤ -q := by linarith [not_le.mp hq]
    have := Int.floor_nonneg.mpr h0
    omega

/-- Claim C6 (amended): score_item is exactly the sum of the source weight,
the recency part, the regional-relevance part and the impact part; whenever
the item is not dated in the future, the recency part is at most 40; an
item at least 40 hours old contributes recency 0; the impact part is capped
at 20.  (The original claim asserted recency at most 40 for every input;
that fails for future-dated items, see the counterexample.) -/
theorem C6_score_decomposition (source title summary : List Char)
    (published now_utc : ℚ) (h : published ≤ now_utc) :
    score_item source title summary published now_utc
        = sourceWeight source + recencyOf published now_utc
          + usOf title summary + impactOf title summary
      ∧ recencyOf published now_utc ≤ 40
      ∧ (40 ≤ ageHours published now_utc → recencyOf published now_utc = 0)
      ∧ impactOf title summary ≤ 20 := by
  refine ⟨rfl, ?_, ?_, ?_⟩
  · unfold recencyOf
    have hage : 0 ≤ ageHours published now_utc := by
      unfold ageHours
      have : (0 : ℚ) ≤ now_utc - published := by linarith
      positivity
    have hq : 40 - ageHours published now_utc ≤ 40 := by linarith
    exact max_le (by norm_num) (pytrunc_le_forty hq)
  · intro h40
    unfold recencyOf
    have hq : 40 - ageHours published now_utc ≤ 0 := by linarith
    exact max_eq_left (pytrunc_nonpos hq)
  · exact min_le_left _ _

/-- Claim C6, witness for the amended theorem at a concrete input. -/
theorem C6_score_decomposition_witness :
    score_item (("Utility Dive").data) [] [] 0 3600
        = sourceWeight (("Utility Dive").data) + recencyOf 0 3600
          + usOf [] [] + impactOf [] []
      ∧ recencyOf 0 3600 ≤ 40
      ∧ (40 ≤ ageHours 0 3600 → recencyOf 0 3600 = 0)
      ∧ impactOf [] [] ≤ 20 :=
  C6_score_decomposition (("Utility Dive").data) [] [] 0 3600 (by norm_num)

/-- Claim C6, counterexample to the original claim: an item published ten
hours in the future has recency 50, exceeding the asserted universal cap
of 40, and its total score exceeds base plus 40. -/
theorem C6_recency_unbounded_ce :
    recencyOf (36000 : ℚ) 0 = 50
      ∧ score_item (("Utility Dive").data) [] [] (36000 : ℚ) 0 = 78
      ∧ ¬ score_item (("Utility Dive").data) [] [] (36000 : ℚ) 0
          ≤ sourceWeight (("Utility Dive").data) + 40 := by
  have hrec : recencyOf (36000 : ℚ) 0 = 50 := by
    unfold recencyOf ageHours pytrunc
    norm_num
  have hbase : sourceWeight (("Utility Dive").data) = 28 := by decide
  have hus : usOf ([] : List Char) [] = 0 := by decide
  have himp : impactOf ([] : List Char) [] = 0 := by decide
  have hsum : score_item (("Utility Dive").data) [] [] (36000 : ℚ) 0
      = sourceWeight (("Utility Dive").data) + recencyOf (36000 : ℚ) 0
        + usOf [] [] + impactOf [] [] := rfl
  refine ⟨hrec, ?_, ?_⟩
  · rw [hsum, hrec, hbase, hus, himp]
    norm_num
  · rw [hsum, hrec, hbase, hus, himp]
    norm_num

/- #### Speech normalizer (claim C1) -/

/-- Claim C1: the speech normalizer is not idempotent.  The code appends a
three-dot ellipsis to the first line on every application, so re-running
it on its own output keeps changing the text; the one-character script
composed of the letter A maps to the letter followed by three dots, and a
second application yields six dots. -/
theorem C1_speech_optimize_not_idempotent :
    speech_optimize (("A").data) = ("A...").data
      ∧ speech_optimize (speech_optimize (("A").data)) = ("A......").data
      ∧ speech_optimize (speech_optimize (("A").data)) ≠ speech_optimize (("A").data) :=
  ⟨by decide, by decide, by decide⟩

/- #### Feed publisher (claims C3 and C4) -/

/-- Claim C3, counterexample to the original claim: a feed document that
lacks the anchor marker but already contains the episode guid does not
fail; update_feed_xml returns successfully and commits the timestamp-only
rewrite, so the document on disk does change. -/
theorem C3_missing_anchor_ce :
    substr FEED_MARKER (("<lastBuildDate>o</lastBuildDate>\nG").data) = false
      ∧ update_feed_xml (("T").data) (("D").data) (("PD").data) (("E").data) 5 (("G").data)
          (("<lastBuildDate>o</lastBuildDate>\nG").data)
        = .ok (("<lastBuildDate>PD</lastBuildDate>\nG").data)
      ∧ (("<lastBuildDate>PD</lastBuildDate>\nG").data)
          ≠ (("<lastBuildDate>o</lastBuildDate>\nG").data) :=
  ⟨by decide, rfl, by decide⟩

/-- Claim C3 (amended): whenever the anchor marker is absent from the
timestamp-rewritten document AND the episode is not detected as a
duplicate (neither guid nor enclosure URL occurs there), update_feed_xml
raises the missing-anchor error; the error branch returns before any
write, so no mutation of the feed document is committed. -/
theorem C3_missing_anchor_fatal (title description pubDateStr enclosure_url : List Char)
    (enclosure_len : Nat) (guid xml : List Char)
    (hg : substr guid (subLastBuildDate pubDateStr xml) = false)
    (he : substr enclosure_url (subLastBuildDate pubDateStr xml) = false)
    (hm : substr FEED_MARKER (subLastBuildDate pubDateStr xml) = false) :
    update_feed_xml title description pubDateStr enclosure_url enclosure_len guid xml
      = .error (("Could not find placeholder marker in feed.xml. Keep the placeholder comment so we can insert new items safely.").data) := by
  unfold update_feed_xml
  rw [if_neg, if_pos]
  · rw [hm]
    simp
  · simp [hg, he]

/-- Claim C3, witness for the amended theorem at a concrete input. -/
theorem C3_missing_anchor_fatal_witness :
    update_feed_xml (("T").data) (("D").data) (("PD").data) (("E").data) 5 (("G").data)
        (("<lastBuildDate>o</lastBuildDate>").data)
      = .error (("Could not find placeholder marker in feed.xml. Keep the placeholder comment so we can insert new items safely.").data) :=
  C3_missing_anchor_fatal (("T").data) (("D").data) (("PD").data) (("E").data) 5 (("G").data)
    (("<lastBuildDate>o</lastBuildDate>").data) (by decide) (by decide) (by decide)

/-- Claim C4, counterexample to the original claim: when the only
occurrence of the guid sits inside the lastBuildDate element, the
document does contain the guid, yet the in-memory timestamp rewrite
erases it before the duplicate check runs, so a new item block is
spliced in after all. -/
theorem C4_duplicate_inserts_ce :
    substr (("G4").data)
        (("<lastBuildDate>G4</lastBuildDate>\n<!-- Placeholder episode -->").data) = true
      ∧ (update_feed_xml (("T").data) (("D").data) (("PD").data) (("E4").data) 5 (("G4").data)
          (("<lastBuildDate>G4</lastBuildDate>\n<!-- Placeholder episode -->").data)).isOk = true
      ∧ substr (("<item>").data)
          ((update_feed_xml (("T").data) (("D").data) (("PD").data) (("E4").data) 5 (("G4").data)
            (("<lastBuildDate>G4</lastBuildDate>\n<!-- Placeholder episode -->").data)).toOption.getD [])
          = true
      ∧ substr (("<item>").data)
          (("<lastBuildDate>G4</lastBuildDate>\n<!-- Placeholder episode -->").data) = false :=
  ⟨by decide, by decide, by decide, by decide⟩

/-- Claim C4 (amended): whenever the guid or the enclosure URL still occurs
in the document after the in-memory lastBuildDate rewrite, update_feed_xml
writes back exactly that rewrite: only the lastBuildDate fields change,
every other byte is left as it was, and no item is inserted. -/
theorem C4_duplicate_skip (title description pubDateStr enclosure_url : List Char)
    (enclosure_len : Nat) (guid xml : List Char)
    (h : substr guid (subLastBuildDate pubDateStr xml) = true
       ∨ substr enclosure_url (subLastBuildDate pubDateStr xml) = true) :
    update_feed_xml title description pubDateStr enclosure_url enclosure_len guid xml
      = .ok (subLastBuildDate pubDateStr xml) := by
  unfold update_feed_xml
  rw [if_pos]
  rcases h with h | h
  · exact Or.inl (by simp [h])
  · exact Or.inr (by simp [h])

/-- Claim C4, witness for the amended theorem at a concrete input. -/
theorem C4_duplicate_skip_witness :
    update_feed_xml (("T").data) (("D").data) (("PD").data) (("E").data) 5 (("G").data)
        (("<lastBuildDate>o</lastBuildDate>\nG\n<!-- Placeholder episode -->").data)
      = .ok (subLastBuildDate (("PD").data)
          (("<lastBuildDate>o</lastBuildDate>\nG\n<!-- Placeholder episode -->").data)) :=
  C4_duplicate_skip (("T").data) (("D").data) (("PD").data) (("E").data) 5 (("G").data)
    (("<lastBuildDate>o</lastBuildDate>\nG\n<!-- Placeholder episode -->").data)
    (Or.inl (by decide))

/- #### Whitespace and separator plumbing -/

theorem inkChars_append (a b : List Char) : inkChars (a ++ b) = inkChars a ++ inkChars b :=
  List.filter_append a b

theorem inkChars_ws_nil {w : List Char} (h : ∀ c ∈ w, pyWs c = true) : inkChars w = [] := by
  unfold inkChars
  rw [List.filter_eq_nil_iff]
  intro c hc
  simp [h c hc]

theorem inkChars_lstrip (s : List Char) : inkChars (lstripL s) = inkChars s := by
  conv_rhs => rw [← List.takeWhile_append_dropWhile (p := pyWs) (l := s)]
  rw [inkChars_append, inkChars_ws_nil (fun c hc => List.mem_takeWhile_imp hc),
    List.nil_append]
  rfl

theorem inkChars_rstrip (s : List Char) : inkChars (rstripL s) = inkChars s := by
  unfold rstripL
  rw [show s.reverse.dropWhile pyWs = lstripL s.reverse from rfl]
  rw [show inkChars (lstripL s.reverse).reverse = (inkChars (lstripL s.reverse)).reverse from
    List.filter_reverse _ _]
  rw [inkChars_lstrip]
  rw [show inkChars s.reverse = (inkChars s).reverse from List.filter_reverse _ _]
  rw [List.reverse_reverse]

theorem inkChars_strip (s : List Char) : inkChars (stripL s) = inkChars s := by
  unfold stripL
  rw [inkChars_rstrip, inkChars_lstrip]

theorem inkChars_cons_nl (s : List Char) : inkChars ('\n' :: s) = inkChars s := by
  unfold inkChars
  rw [List.filter_cons]
  norm_num [pyWs]

theorem splitSep_ne_nil (s : List Char) : splitSep s ≠ [] := by
  induction s using splitSep.induct with
  | case1 => simp [splitSep]
  | case2 c => simp [splitSep]
  | case3 a b t hab ih =>
    unfold splitSep
    rw [if_pos hab]
    simp
  | case4 a b t hab p ps heq ih =>
    unfold splitSep
    rw [if_neg hab, heq]
    simp
  | case5 a b t hab heq ih => exact absurd heq ih

theorem joinSep_cons_cons (a : Char) (p : List Char) (ps : List (List Char)) :
    joinSep ((a :: p) :: ps) = a :: joinSep (p :: ps) := by
  cases ps with
  | nil => rfl
  | cons f l => rfl

theorem joinSep_splitSep (s : List Char) : joinSep (splitSep s) = s := by
  induction s using splitSep.induct with
  | case1 => rfl
  | case2 c => rfl
  | case3 a b t hab ih =>
    obtain ⟨ha, hb⟩ := hab
    subst ha
    subst hb
    rw [show splitSep ('\n' :: '\n' :: t) = [] :: splitSep t by
      simp only [splitSep]
      simp]
    rcases hsp : splitSep t with _ | ⟨hd, tl⟩
    · exact absurd hsp (splitSep_ne_nil t)
    · rw [hsp] at ih
      rw [show joinSep ([] :: hd :: tl) = [] ++ '\n' :: '\n' :: joinSep (hd :: tl) from rfl]
      simp [ih]
  | case4 a b t hab p ps heq ih =>
    rw [show splitSep (a :: b :: t) = (a :: p) :: ps by
      unfold splitSep
      rw [if_neg hab, heq]]
    rw [heq] at ih
    rw [joinSep_cons_cons, ih]
  | case5 a b t hab heq ih => exact absurd heq (splitSep_ne_nil (b :: t))

theorem inkChars_joinSep (l : List (List Char)) : inkChars (joinSep l) = inkChars l.flatten := by
  induction l with
  | nil => rfl
  | cons e l ih =>
    cases l with
    | nil => simp [joinSep]
    | cons f l2 =>
      rw [show joinSep (e :: f :: l2) = e ++ '\n' :: '\n' :: joinSep (f :: l2) from rfl]
      rw [show (e :: f :: l2).flatten = e ++ (f :: l2).flatten from rfl]
      rw [inkChars_append, inkChars_append, ← ih, inkChars_cons_nl, inkChars_cons_nl]

/- #### Chunker lemmas (claim C9) -/

theorem hardSplitF_concat : ∀ (fuel m : Nat) (p : List Char),
    (hardSplitF fuel m p).1.flatten ++ (hardSplitF fuel m p).2 = p := by
  intro fuel
  induction fuel with
  | zero => intro m p; rfl
  | succ fuel ih =>
    intro m p
    unfold hardSplitF
    split
    · split
      · rfl
      · simp only [List.flatten_cons, List.append_assoc, ih, List.take_append_drop]
    · rfl

theorem hardSplitF_pieces_le : ∀ (fuel m : Nat) (p c : List Char),
    c ∈ (hardSplitF fuel m p).1 → c.length ≤ m := by
  intro fuel
  induction fuel with
  | zero => intro m p c hc; simp [hardSplitF] at hc
  | succ fuel ih =>
    intro m p c hc
    unfold hardSplitF at hc
    split at hc
    · split at hc
      · simp at hc
      · simp only [List.mem_cons] at hc
        rcases hc with hc | hc
        · subst hc
          simp [List.length_take]
        · exact ih m (p.drop m) c hc
    · simp at hc

theorem hardSplitF_rest_le : ∀ (fuel m : Nat), 1 ≤ m → ∀ (p : List Char),
    p.length ≤ fuel + m → (hardSplitF fuel m p).2.length ≤ m := by
  intro fuel
  induction fuel with
  | zero =>
    intro m hm p hp
    simpa [hardSplitF] using hp
  | succ fuel ih =>
    intro m hm p hp
    unfold hardSplitF
    split
    · rw [if_neg (by omega)]
      simp only
      exact ih m hm (p.drop m) (by simp [List.length_drop]; omega)
    · rename_i hlt
      simp only
      omega

theorem chunkLoop_spec (m : Nat) (hm : 1 ≤ m) :
    ∀ (ps : List (List Char)) (chunks : List (List Char)) (cur : List Char),
      (∀ c ∈ chunks, c.length ≤ m) → cur.length ≤ m →
      (∀ c ∈ (chunkLoop m (chunks, cur) ps).1, c.length ≤ m)
        ∧ (chunkLoop m (chunks, cur) ps).2.length ≤ m
        ∧ inkChars ((chunkLoop m (chunks, cur) ps).1.flatten ++ (chunkLoop m (chunks, cur) ps).2)
            = inkChars (chunks.flatten ++ (cur ++ ps.flatten)) := by
  intro ps
  induction ps with
  | nil =>
    intro chunks cur h1 h2
    exact ⟨h1, h2, by simp [chunkLoop]⟩
  | cons p ps ih =>
    intro chunks cur h1 h2
    show _ ∧ _ ∧ inkChars ((chunkLoop m (chunks, cur) (p :: ps)).1.flatten
        ++ (chunkLoop m (chunks, cur) (p :: ps)).2) = _
    rw [show chunkLoop m (chunks, cur) (p :: ps)
        = if (stripL (cur ++ (if cur ≠ [] then ['\n', '\n'] else []) ++ p)).length ≤ m then
            chunkLoop m (chunks, stripL (cur ++ (if cur ≠ [] then ['\n', '\n'] else []) ++ p)) ps
          else
            chunkLoop m ((if cur ≠ [] then chunks ++ [cur] else chunks) ++ (hardSplit m p).1,
              (hardSplit m p).2) ps
      from rfl]
    have hinkcand : inkChars (stripL (cur ++ (if cur ≠ [] then ['\n', '\n'] else []) ++ p))
        = inkChars cur ++ inkChars p := by
      rw [inkChars_strip, inkChars_append, inkChars_append]
      by_cases hc : cur = []
      · simp [hc, inkChars]
      · rw [if_pos hc]
        rw [show inkChars ['\n', '\n'] = inkChars [] by
          rw [show ('\n' :: ['\n'] : List Char) = '\n' :: '\n' :: [] from rfl,
            inkChars_cons_nl, inkChars_cons_nl]]
        simp [inkChars]
    by_cases hcand : (stripL (cur ++ (if cur ≠ [] then ['\n', '\n'] else []) ++ p)).length ≤ m
    · rw [if_pos hcand]
      obtain ⟨a, b, c⟩ := ih chunks _ h1 hcand
      refine ⟨a, b, ?_⟩
      rw [c, inkChars_append, inkChars_append, hinkcand, inkChars_append, inkChars_append,
        show (p :: ps).flatten = p ++ ps.flatten from rfl, inkChars_append]
      simp [List.append_assoc]
    · rw [if_neg hcand]
      have hch1 : ∀ c ∈ (if cur ≠ [] then chunks ++ [cur] else chunks) ++ (hardSplit m p).1,
          c.length ≤ m := by
        intro c hc
        rcases List.mem_append.mp hc with hc | hc
        · by_cases hcur : cur = []
          · rw [if_neg (by simp [hcur])] at hc
            exact h1 c hc
          · rw [if_pos hcur] at hc
            rcases List.mem_append.mp hc with hc | hc
            · exact h1 c hc
            · simp at hc
              subst hc
              exact h2
        · exact hardSplitF_pieces_le _ m p c hc
      have hrest : (hardSplit m p).2.length ≤ m :=
        hardSplitF_rest_le p.length m hm p (by omega)
      obtain ⟨a, b, c⟩ := ih _ _ hch1 hrest
      refine ⟨a, b, ?_⟩
      rw [c]
      have hsplit : (hardSplit m p).1.flatten ++ (hardSplit m p).2 = p :=
        hardSplitF_concat p.length m p
      rw [show (p :: ps).flatten = p ++ ps.flatten from rfl]
      rw [List.flatten_append]
      have hinkp : inkChars ((hardSplit m p).1.flatten) ++ inkChars ((hardSplit m p).2)
          = inkChars p := by rw [← inkChars_append, hsplit]
      by_cases hcur : cur = []
      · rw [if_neg (by simp [hcur])]
        subst hcur
        simp only [inkChars_append, List.append_assoc]
        rw [← List.append_assoc (inkChars (hardSplit m p).1.flatten), hinkp]
        simp [inkChars]
      · rw [if_pos hcur]
        simp only [List.flatten_append, List.flatten_cons, List.flatten_nil,
          inkChars_append, List.append_assoc, List.append_nil]
        rw [← List.append_assoc (inkChars (hardSplit m p).1.flatten), hinkp]

theorem inkChars_flatten_filter (l : List (List Char)) :
    inkChars (List.flatten (l.filter (fun c => ! (stripL c).isEmpty)))
      = inkChars l.flatten := by
  induction l with
  | nil => rfl
  | cons c l ih =>
    rw [List.filter_cons]
    by_cases hc : (stripL c).isEmpty
    · have hnil : stripL c = [] := List.isEmpty_iff.mp hc
      have hink : inkChars c = [] := by rw [← inkChars_strip, hnil]; rfl
      simp only [hc, Bool.not_true, List.flatten_cons, inkChars_append, hink, ih,
        List.nil_append, if_neg (by simp : ¬ (false = true))]
    · simp only [Bool.not_eq_true] at hc
      simp [hc, List.flatten_cons, inkChars_append, ih]

/-- Claim C9: for every text and every positive character limit, chunk_text
produces only chunks of length at most the limit, produces no empty chunk,
and concatenating the chunks reproduces the text up to the boundary
whitespace the splitting discards: the subsequence of non-whitespace
characters is preserved exactly. -/
theorem C9_chunker_correct (text : List Char) (max_chars : Nat) (hm : 1 ≤ max_chars) :
    (∀ c ∈ chunk_text text max_chars, c ≠ [] ∧ c.length ≤ max_chars)
      ∧ inkChars (chunk_text text max_chars).flatten = inkChars text := by
  obtain ⟨h1, h2, h3⟩ :=
    chunkLoop_spec max_chars hm (splitSep text) [] [] (by simp) (by simp)
  constructor
  · intro c hc
    unfold chunk_text at hc
    have hmem := List.mem_filter.mp hc
    constructor
    · intro hnil
      have := hmem.2
      rw [hnil] at this
      simp [stripL, lstripL, rstripL] at this
    · by_cases hc2 : (chunkLoop max_chars ([], []) (splitSep text)).2 = []
      · have := hmem.1
        rw [if_neg (by simp [hc2])] at this
        exact h1 c this
      · have := hmem.1
        rw [if_pos hc2] at this
        rcases List.mem_append.mp this with hm1 | hm1
        · exact h1 c hm1
        · simp at hm1
          subst hm1
          exact h2
  · unfold chunk_text
    rw [inkChars_flatten_filter]
    have hflat : inkChars (if (chunkLoop max_chars ([], []) (splitSep text)).2 ≠ [] then
          (chunkLoop max_chars ([], []) (splitSep text)).1
            ++ [(chunkLoop max_chars ([], []) (splitSep text)).2]
        else (chunkLoop max_chars ([], []) (splitSep text)).1).flatten
        = inkChars ((chunkLoop max_chars ([], []) (splitSep text)).1.flatten
            ++ (chunkLoop max_chars ([], []) (splitSep text)).2) := by
      by_cases hc2 : (chunkLoop max_chars ([], []) (splitSep text)).2 = []
      · rw [if_neg (by simp [hc2]), hc2]
        simp
      · rw [if_pos hc2]
        simp [List.flatten_append, inkChars_append]
    rw [hflat, h3]
    simp only [List.flatten_nil, List.nil_append]
    rw [← inkChars_joinSep, joinSep_splitSep]

/-- Claim C9, witness at a concrete text and limit. -/
theorem C9_chunker_correct_witness :
    (∀ c ∈ chunk_text (("aaa\n\nbb").data) 3, c ≠ [] ∧ c.length ≤ 3)
      ∧ inkChars (chunk_text (("aaa\n\nbb").data) 3).flatten
          = inkChars (("aaa\n\nbb").data) :=
  C9_chunker_correct (("aaa\n\nbb").data) 3 (by norm_num)

/- #### Canonicalizer dedupe (claim C7) and freshness gate (claim C8) -/

theorem canonicalize_eq_of_parts (u1 u2 : List Char) (p1 p2 : UrlParts)
    (h1 : urlparseE u1 = .ok p1) (h2 : urlparseE u2 = .ok p2)
    (hsch : p1.scheme = p2.scheme) (hnet : p1.netloc = p2.netloc)
    (hpath : p1.path = p2.path) (hpar : p1.params = p2.params)
    (hfrag : p1.fragment = p2.fragment)
    (hq : (parse_qsl p1.query).filter (fun kv => ! trackingKeys.contains (lowerL kv.1))
        = (parse_qsl p2.query).filter (fun kv => ! trackingKeys.contains (lowerL kv.1))) :
    canonicalize u1 = canonicalize u2 := by
  unfold canonicalize
  rw [h1, h2]
  dsimp only
  cases p1
  cases p2
  simp only at hsch hnet hpath hpar hfrag hq
  subst hsch hnet hpath hpar hfrag
  rw [hq]

theorem processEntry_skip (now_utc : ℚ) (source : List Char)
    (st : List ScoredItem × List (List Char)) (e : RawEntry)
    (h : canonicalize e.link = [] ∨ st.2.contains (canonicalize e.link) = true) :
    processEntry now_utc source st e = st := by
  unfold processEntry
  rw [if_pos]
  rcases h with h | h
  · exact Or.inl h
  · exact Or.inr (by simp [List.mem_of_elem_eq_true h])

theorem processEntry_seen_singleton (now_utc : ℚ) (source : List Char) (e : RawEntry)
    (h : ¬ canonicalize e.link = []) :
    (processEntry now_utc source ([], []) e).2 = [canonicalize e.link] := by
  unfold processEntry
  rw [if_neg]
  · cases hp : e.published with
    | none => rfl
    | some published =>
      simp only
      split
      · rfl
      · split
        · rfl
        · rfl
  · simp [h]

/-- Claim C7: two URL strings that parse to the same scheme, netloc, path,
params and fragment, and whose query pair lists agree after dropping the
tracking deny-list keys (that is, URLs differing only in tracking
parameters) canonicalize to identical strings; and in the assembler loop
the entry carrying the second such URL is dropped as a duplicate, so the
collected items are exactly those of the first entry alone (first-seen
wins). -/
theorem C7_canonicalize_dedup (u1 u2 : List Char) (p1 p2 : UrlParts) (now_utc : ℚ)
    (src1 src2 t1 s1 t2 s2 : List Char) (d1 d2 : Option ℚ)
    (h1 : urlparseE u1 = .ok p1) (h2 : urlparseE u2 = .ok p2)
    (hsch : p1.scheme = p2.scheme) (hnet : p1.netloc = p2.netloc)
    (hpath : p1.path = p2.path) (hpar : p1.params = p2.params)
    (hfrag : p1.fragment = p2.fragment)
    (hq : (parse_qsl p1.query).filter (fun kv => ! trackingKeys.contains (lowerL kv.1))
        = (parse_qsl p2.query).filter (fun kv => ! trackingKeys.contains (lowerL kv.1))) :
    canonicalize u1 = canonicalize u2
      ∧ collectItems now_utc [(src1, [⟨u1, t1, s1, d1⟩]), (src2, [⟨u2, t2, s2, d2⟩])]
          = collectItems now_utc [(src1, [⟨u1, t1, s1, d1⟩])] := by
  have hcan := canonicalize_eq_of_parts u1 u2 p1 p2 h1 h2 hsch hnet hpath hpar hfrag hq
  refine ⟨hcan, ?_⟩
  unfold collectItems
  simp only [List.foldl_cons, List.foldl_nil]
  by_cases hnil : canonicalize u1 = []
  · rw [processEntry_skip now_utc src2 _ ⟨u2, t2, s2, d2⟩ (Or.inl (by rw [← hcan]; exact hnil))]
  · have hseen := processEntry_seen_singleton now_utc src1 ⟨u1, t1, s1, d1⟩ hnil
    rw [processEntry_skip now_utc src2 _ ⟨u2, t2, s2, d2⟩
      (Or.inr (by simp only [hseen]; simp [← hcan]))]

/-- Claim C7, witness: two concrete URLs differing only in one tracking
parameter canonicalize identically and the second entry is dropped. -/
theorem C7_canonicalize_dedup_witness :
    canonicalize (("https://ex.com/a?id=1&utm_source=x").data)
        = canonicalize (("https://ex.com/a?id=1&gclid=y").data)
      ∧ collectItems 0
          [((("Utility Dive").data),
            [⟨("https://ex.com/a?id=1&utm_source=x").data, ("Texas").data, ("t").data, some 0⟩]),
           ((("POWER Magazine").data),
            [⟨("https://ex.com/a?id=1&gclid=y").data, ("Ohio").data, ("o").data, some 0⟩])]
          = collectItems 0
            [((("Utility Dive").data),
              [⟨("https://ex.com/a?id=1&utm_source=x").data, ("Texas").data, ("t").data, some 0⟩])] :=
  C7_canonicalize_dedup
    (("https://ex.com/a?id=1&utm_source=x").data) (("https://ex.com/a?id=1&gclid=y").data)
    ⟨("https").data, ("ex.com").data, ("/a").data, [], ("id=1&utm_source=x").data, []⟩
    ⟨("https").data, ("ex.com").data, ("/a").data, [], ("id=1&gclid=y").data, []⟩
    0 (("Utility Dive").data) (("POWER Magazine").data)
    (("Texas").data) (("t").data) (("Ohio").data) (("o").data) (some 0) (some 0)
    rfl rfl rfl rfl rfl rfl rfl (by decide)

theorem processEntry_window {now_utc : ℚ} {source : List Char}
    {st : List ScoredItem × List (List Char)} {e : RawEntry}
    (h : ∀ it ∈ st.1, now_utc - 30 * 3600 ≤ it.published) :
    ∀ it ∈ (processEntry now_utc source st e).1, now_utc - 30 * 3600 ≤ it.published := by
  intro it hit
  unfold processEntry at hit
  by_cases hg : canonicalize e.link = [] ∨ st.2.contains (canonicalize e.link) = true
  · rw [if_pos hg] at hit
    exact h it hit
  · rw [if_neg hg] at hit
    simp only at hit
    cases hp : e.published with
    | none =>
      rw [hp] at hit
      simp only at hit
      exact h it hit
    | some published =>
      rw [hp] at hit
      simp only at hit
      by_cases hw : published < now_utc - 30 * 3600
      · rw [if_pos hw] at hit
        exact h it hit
      · rw [if_neg hw] at hit
        by_cases hr : ¬ is_us_relevant (stripL e.title) (textify e.summary) = true
        · rw [if_pos hr] at hit
          exact h it hit
        · rw [if_neg hr] at hit
          simp only at hit
          rcases List.mem_append.mp hit with hm | hm
          · exact h it hm
          · simp only [List.mem_singleton] at hm
            subst hm
            dsimp only
            linarith

theorem foldl_processEntry_window (now_utc : ℚ) (source : List Char) :
    ∀ (es : List RawEntry) (st : List ScoredItem × List (List Char)),
      (∀ it ∈ st.1, now_utc - 30 * 3600 ≤ it.published) →
      ∀ it ∈ (es.foldl (processEntry now_utc source) st).1,
        now_utc - 30 * 3600 ≤ it.published := by
  intro es
  induction es with
  | nil =>
    intro st h it hit
    exact h it hit
  | cons e rest ih =>
    intro st h it hit
    rw [List.foldl_cons] at hit
    exact ih _ (processEntry_window h) it hit

theorem collectItems_window (now_utc : ℚ) (feeds : List (List Char × List RawEntry)) :
    ∀ it ∈ collectItems now_utc feeds, now_utc - 30 * 3600 ≤ it.published := by
  unfold collectItems
  have hgen : ∀ (fs : List (List Char × List RawEntry))
      (st : List ScoredItem × List (List Char)),
      (∀ it ∈ st.1, now_utc - 30 * 3600 ≤ it.published) →
      ∀ it ∈ (fs.foldl (fun st fe => fe.2.foldl (processEntry now_utc fe.1) st) st).1,
        now_utc - 30 * 3600 ≤ it.published := by
    intro fs
    induction fs with
    | nil =>
      intro st h it hit
      exact h it hit
    | cons fe rest ih =>
      intro st h it hit
      rw [List.foldl_cons] at hit
      exact ih _ (foldl_processEntry_window now_utc fe.1 fe.2 st h) it hit
  exact hgen feeds ([], []) (by simp)

/-- Claim C8: the freshness gate sits at 30 hours, for every item.  First,
every item of the candidate set built by the collection loop, over any
feed list, was published at most 30 hours before the run instant — so an
entry published 31 hours ago can never be collected, whatever its link,
title, summary or source.  Second, processing an arbitrary entry published
31 hours ago leaves the candidate list unchanged at every fold state.
Third, an arbitrary entry published 29 hours ago is not excluded by the
freshness window: whenever the other gates pass (nonempty canonical URL,
not yet seen, regionally relevant), it is appended to the candidate list. -/
theorem C8_freshness_boundary (now_utc : ℚ) :
    (∀ (feeds : List (List Char × List RawEntry)),
      ∀ it ∈ collectItems now_utc feeds, now_utc - 30 * 3600 ≤ it.published)
    ∧ (∀ (source link title summary : List Char)
        (st : List ScoredItem × List (List Char)),
        (processEntry now_utc source st
          ⟨link, title, summary, some (now_utc - 31 * 3600)⟩).1 = st.1)
    ∧ (∀ (source link title summary : List Char)
        (st : List ScoredItem × List (List Char)),
        canonicalize link ≠ [] →
        st.2.contains (canonicalize link) = false →
        is_us_relevant (stripL title) (textify summary) = true →
        (processEntry now_utc source st
            ⟨link, title, summary, some (now_utc - 29 * 3600)⟩).1
          = st.1 ++ [⟨source, stripL title, canonicalize link, now_utc - 29 * 3600,
              textify summary,
              score_item source (stripL title) (textify summary)
                (now_utc - 29 * 3600) now_utc⟩]) := by
  refine ⟨fun feeds => collectItems_window now_utc feeds, ?_, ?_⟩
  · intro source link title summary st
    unfold processEntry
    by_cases hg : canonicalize link = [] ∨ st.2.contains (canonicalize link) = true
    · rw [if_pos hg]
    · rw [if_neg hg]
      simp only
      rw [if_pos (by linarith)]
  · intro source link title summary st hurl hseen hrel
    unfold processEntry
    rw [if_neg (by
      rintro (h | h)
      · exact hurl h
      · rw [hseen] at h
        exact Bool.false_ne_true h)]
    simp only
    rw [if_neg (by linarith), if_neg (by
      simp only [Decidable.not_not]
      exact hrel)]

/-- Claim C8, witness: the boundary theorem applied at a concrete run
instant and a concrete regionally relevant entry, discharging the gate
hypotheses of the 29-hour conjunct. -/
theorem C8_freshness_boundary_witness :
    canonicalize (("https://ex.com/a").data) ≠ []
    ∧ (([] : List (List Char)).contains (canonicalize (("https://ex.com/a").data))) = false
    ∧ is_us_relevant (stripL (("Texas grid update").data)) (textify (("t").data)) = true
    ∧ (processEntry 0 (("Utility Dive").data) ([], [])
        ⟨("https://ex.com/a").data, ("Texas grid update").data, ("t").data,
          some ((0 : ℚ) - 31 * 3600)⟩).1 = []
    ∧ (processEntry 0 (("Utility Dive").data) ([], [])
          ⟨("https://ex.com/a").data, ("Texas grid update").data, ("t").data,
            some ((0 : ℚ) - 29 * 3600)⟩).1
        = [] ++ [⟨("Utility Dive").data, stripL (("Texas grid update").data),
            canonicalize (("https://ex.com/a").data), (0 : ℚ) - 29 * 3600,
            textify (("t").data),
            score_item (("Utility Dive").data) (stripL (("Texas grid update").data))
              (textify (("t").data)) ((0 : ℚ) - 29 * 3600) 0⟩] :=
  ⟨by decide, by decide, by decide,
   (C8_freshness_boundary 0).2.1 (("Utility Dive").data) (("https://ex.com/a").data)
     (("Texas grid update").data) (("t").data) ([], []),
   (C8_freshness_boundary 0).2.2 (("Utility Dive").data) (("https://ex.com/a").data)
     (("Texas grid update").data) (("t").data) ([], [])
     (by decide) (by decide) (by decide)⟩

/- #### TTS fallback (claim C5) -/

theorem genOpenaiCalls_quota (oracle : Nat → HttpResp) :
    ∀ (k : Nat) (cs : List (List Char)) (i : Nat),
      k < cs.length →
      (∀ j, j < k → openaiTtsOutcome (oracle (i + j)) = .success) →
      openaiTtsOutcome (oracle (i + k)) = .quota →
      genOpenaiCalls oracle i cs
        = ((List.range (k + 1)).map (fun j => TtsEvent.primaryCall (i + j)),
           some PrimOutcome.quota) := by
  intro k
  induction k with
  | zero =>
    intro cs i hk _ hq
    match cs, hk with
    | c :: cs, _ =>
      unfold genOpenaiCalls
      rw [show i + 0 = i from rfl] at hq
      rw [hq]
      simp [List.range_succ]
  | succ k ih =>
    intro cs i hk hs hq
    match cs, hk with
    | c :: cs, hk =>
      have h0 : openaiTtsOutcome (oracle i) = .success := by
        have := hs 0 (Nat.succ_pos k)
        simpa using this
      have ihx := ih cs (i + 1) (by simpa using hk)
        (fun j hj => by
          have := hs (j + 1) (by omega)
          simpa [Nat.add_assoc, Nat.add_comm 1 j] using this)
        (by
          have : i + 1 + k = i + (k + 1) := by omega
          rw [this]
          exact hq)
      unfold genOpenaiCalls
      rw [h0, ihx]
      have hrange : List.range (k + 1 + 1) = 0 :: (List.range (k + 1)).map (· + 1) :=
        List.range_succ_eq_map (k + 1)
      rw [hrange]
      simp only [List.map_cons, List.map_map, Nat.add_zero]
      refine congrArg (fun l => (TtsEvent.primaryCall i :: l, some PrimOutcome.quota)) ?_
      refine List.map_congr_left ?_
      intro j _
      simp [Function.comp]
      omega

/-- Claim C5: when the primary provider reports the quota condition on the
chunk of index k (after successes on the earlier chunks), the run performs
the k+1 primary calls, then exactly one fallback synthesis invocation, and
no further primary call: the whole event trace is the primary calls for
chunks 0..k followed by the single fallback event. -/
theorem C5_quota_fallback_once (oracle : Nat → HttpResp) (speech_text : List Char) (k : Nat)
    (hk : k < (chunk_text speech_text OPENAI_MAX_CHARS).length)
    (hs : ∀ j, j < k → openaiTtsOutcome (oracle j) = .success)
    (hq : openaiTtsOutcome (oracle k) = .quota) :
    ttsRender oracle speech_text
        = ((List.range (k + 1)).map TtsEvent.primaryCall) ++ [TtsEvent.fallbackCall]
      ∧ (ttsRender oracle speech_text).count TtsEvent.fallbackCall = 1 := by
  have main := genOpenaiCalls_quota oracle k (chunk_text speech_text OPENAI_MAX_CHARS) 0 hk
    (fun j hj => by simpa using hs j hj) (by simpa using hq)
  have htrace : ttsRender oracle speech_text
      = ((List.range (k + 1)).map TtsEvent.primaryCall) ++ [TtsEvent.fallbackCall] := by
    unfold ttsRender
    simp only [main]
    simp
  refine ⟨htrace, ?_⟩
  rw [htrace]
  rw [List.count_append]
  have h1 : (List.map TtsEvent.primaryCall (List.range (k + 1))).count TtsEvent.fallbackCall = 0 := by
    rw [List.count_eq_zero]
    intro hmem
    rcases List.mem_map.mp hmem with ⟨j, _, hj⟩
    exact absurd hj (by simp)
  rw [h1]
  simp

/-- Claim C5, witness: a primary provider that reports the quota condition
on its first call leads to the trace of one primary call followed by the
single fallback invocation. -/
theorem C5_quota_fallback_once_witness :
    ttsRender (fun _ => ⟨false, 429, ("insufficient_quota").data⟩) (("hello").data)
        = ((List.range 1).map TtsEvent.primaryCall) ++ [TtsEvent.fallbackCall]
      ∧ (ttsRender (fun _ => ⟨false, 429, ("insufficient_quota").data⟩)
          (("hello").data)).count TtsEvent.fallbackCall = 1 :=
  C5_quota_fallback_once (fun _ => ⟨false, 429, ("insufficient_quota").data⟩)
    (("hello").data) 0 (by decide) (fun j hj => absurd hj (by omega)) (by decide)

/- #### Separator-count lemmas (claims C10 and C2) -/

theorem countSep_cons2_pos {a b : Char} (t : List Char) (h : a = '\n' ∧ b = '\n') :
    countSep (a :: b :: t) = countSep t + 1 := by
  simp only [countSep]
  rw [if_pos h]

theorem countSep_cons2_neg {a b : Char} (t : List Char) (h : ¬ (a = '\n' ∧ b = '\n')) :
    countSep (a :: b :: t) = countSep (b :: t) := by
  simp only [countSep]
  rw [if_neg h]

theorem splitSep_cons2_pos {a b : Char} (t : List Char) (h : a = '\n' ∧ b = '\n') :
    splitSep (a :: b :: t) = [] :: splitSep t := by
  simp only [splitSep]
  rw [if_pos h]

theorem splitSep_cons2_neg {a b : Char} (t : List Char) (h : ¬ (a = '\n' ∧ b = '\n')) :
    splitSep (a :: b :: t)
      = (a :: (splitSep (b :: t)).headD []) :: (splitSep (b :: t)).tail := by
  simp only [splitSep]
  rw [if_neg h]
  rcases hsp : splitSep (b :: t) with _ | ⟨hd, tl⟩
  · exact absurd hsp (splitSep_ne_nil (b :: t))
  · rfl

theorem countSep_le_cons (t : List Char) : ∀ c, countSep t ≤ countSep (c :: t) := by
  induction t using countSep.induct with
  | case1 => intro c; simp [countSep]
  | case2 x => intro c; rw [show countSep [x] = 0 from rfl]; exact Nat.zero_le _
  | case3 a b t hab ih =>
    intro c
    rw [countSep_cons2_pos t hab]
    by_cases hca : c = '\n' ∧ a = '\n'
    · rw [countSep_cons2_pos (b :: t) hca]
      exact Nat.succ_le_succ (ih b)
    · rw [countSep_cons2_neg (b :: t) hca, countSep_cons2_pos t hab]
  | case4 a b t hab ih =>
    intro c
    rw [countSep_cons2_neg t hab]
    by_cases hca : c = '\n' ∧ a = '\n'
    · rw [countSep_cons2_pos (b :: t) hca]
      omega
    · rw [countSep_cons2_neg (b :: t) hca, countSep_cons2_neg t hab]

theorem countSep_append_left (t : List Char) : ∀ w, countSep t ≤ countSep (w ++ t) := by
  intro w
  induction w with
  | nil => exact le_refl _
  | cons c w ih => exact le_trans ih (countSep_le_cons (w ++ t) c)

theorem countSep_append_right (t : List Char) : ∀ w, countSep t ≤ countSep (t ++ w) := by
  induction t using countSep.induct with
  | case1 => intro w; exact Nat.zero_le _
  | case2 x => intro w; rw [show countSep [x] = 0 from rfl]; exact Nat.zero_le _
  | case3 a b t hab ih =>
    intro w
    rw [countSep_cons2_pos t hab,
      show (a :: b :: t) ++ w = a :: b :: (t ++ w) from rfl,
      countSep_cons2_pos (t ++ w) hab]
    exact Nat.succ_le_succ (ih w)
  | case4 a b t hab ih =>
    intro w
    rw [countSep_cons2_neg t hab,
      show (a :: b :: t) ++ w = a :: b :: (t ++ w) from rfl,
      countSep_cons2_neg (t ++ w) hab]
    exact ih w

theorem lstrip_decomp (s : List Char) :
    s = s.takeWhile pyWs ++ lstripL s ∧ ∀ c ∈ s.takeWhile pyWs, pyWs c = true := by
  refine ⟨(List.takeWhile_append_dropWhile pyWs s).symm, ?_⟩
  intro c hc
  exact List.mem_takeWhile_imp hc

theorem rstrip_decomp (s : List Char) :
    ∃ w, s = rstripL s ++ w ∧ ∀ c ∈ w, pyWs c = true := by
  refine ⟨(s.reverse.takeWhile pyWs).reverse, ?_, ?_⟩
  · calc s = s.reverse.reverse := (List.reverse_reverse s).symm
    _ = (s.reverse.takeWhile pyWs ++ s.reverse.dropWhile pyWs).reverse := by
        rw [List.takeWhile_append_dropWhile]
    _ = (s.reverse.dropWhile pyWs).reverse ++ (s.reverse.takeWhile pyWs).reverse := by
        rw [List.reverse_append]
    _ = rstripL s ++ (s.reverse.takeWhile pyWs).reverse := rfl
  · intro c hc
    rw [List.mem_reverse] at hc
    exact List.mem_takeWhile_imp hc

theorem countSep_strip_le (s : List Char) : countSep (stripL s) ≤ countSep s := by
  obtain ⟨w, hw, _⟩ := rstrip_decomp (lstripL s)
  calc countSep (stripL s) = countSep (rstripL (lstripL s)) := rfl
  _ ≤ countSep (rstripL (lstripL s) ++ w) := countSep_append_right _ w
  _ = countSep (lstripL s) := by rw [← hw]
  _ ≤ countSep (s.takeWhile pyWs ++ lstripL s) := countSep_append_left _ _
  _ = countSep s := by rw [← (lstrip_decomp s).1]

theorem length_splitSep (s : List Char) : (splitSep s).length = countSep s + 1 := by
  induction s using splitSep.induct with
  | case1 => rfl
  | case2 c => rfl
  | case3 a b t hab ih =>
    rw [splitSep_cons2_pos t hab, countSep_cons2_pos t hab]
    simp [ih]
  | case4 a b t hab p ps heq ih =>
    rw [splitSep_cons2_neg t hab, countSep_cons2_neg t hab, heq] at *
    simp only [List.headD_cons, List.tail_cons, List.length_cons] at *
    exact ih
  | case5 a b t hab heq ih => exact absurd heq (splitSep_ne_nil (b :: t))

theorem hasTwoNL_cons_false {a : Char} {t : List Char} (h : hasTwoNL (a :: t) = false) :
    hasTwoNL t = false ∧ ¬ (a = '\n' ∧ t.head? = some '\n') := by
  cases t with
  | nil => exact ⟨rfl, by simp⟩
  | cons b t' =>
    rw [show hasTwoNL (a :: b :: t')
        = ((a = '\n' && b = '\n') || hasTwoNL (b :: t')) from rfl] at h
    simp only [Bool.or_eq_false_iff, Bool.and_eq_false_iff] at h
    refine ⟨h.2, ?_⟩
    rintro ⟨ha, hb⟩
    simp only [List.head?_cons, Option.some.injEq] at hb
    rcases h.1 with h1 | h1 <;> simp_all

theorem hasTwoNL_cons_false_intro {a : Char} {t : List Char}
    (h1 : ¬ (a = '\n' ∧ t.head? = some '\n')) (h2 : hasTwoNL t = false) :
    hasTwoNL (a :: t) = false := by
  cases t with
  | nil => rfl
  | cons b t' =>
    rw [show hasTwoNL (a :: b :: t')
        = ((a = '\n' && b = '\n') || hasTwoNL (b :: t')) from rfl]
    simp only [Bool.or_eq_false_iff, Bool.and_eq_false_iff]
    refine ⟨?_, h2⟩
    by_cases ha : a = '\n'
    · right
      simp only [decide_eq_false_iff_not]
      intro hb
      exact h1 ⟨ha, by simp [hb]⟩
    · left
      simp [ha]

theorem hasTwoNL_of_not_mem {l : List Char} (h : '\n' ∉ l) : hasTwoNL l = false := by
  induction l with
  | nil => rfl
  | cons a t ih =>
    refine hasTwoNL_cons_false_intro ?_ (ih (fun hm => h (List.mem_cons_of_mem a hm)))
    rintro ⟨ha, _⟩
    exact h (ha ▸ List.mem_cons_self a t)

theorem hasTwoNL_append_false {x y : List Char} (hx : hasTwoNL x = false)
    (hy : hasTwoNL y = false) (hb : ¬ (x.getLast? = some '\n' ∧ y.head? = some '\n')) :
    hasTwoNL (x ++ y) = false := by
  induction x with
  | nil => simpa using hy
  | cons a t ih =>
    obtain ⟨ht, hat⟩ := hasTwoNL_cons_false hx
    have hlast : ¬ (t.getLast? = some '\n' ∧ y.head? = some '\n') := by
      cases t with
      | nil => simp
      | cons b t' =>
        intro hc
        exact hb ⟨by rw [List.getLast?_cons_cons] at *; exact hc.1, hc.2⟩
    rw [List.cons_append]
    refine hasTwoNL_cons_false_intro ?_ (ih ht hlast)
    rintro ⟨ha, hhead⟩
    cases t with
    | nil =>
      simp only [List.nil_append] at hhead
      exact hb ⟨by simp [ha], hhead⟩
    | cons b t' =>
      simp only [List.cons_append, List.head?_cons, Option.some.injEq] at hhead
      exact hat ⟨ha, by simp [hhead]⟩

theorem countSep_cons_eq_of {a : Char} {t : List Char}
    (h : ¬ (a = '\n' ∧ t.head? = some '\n')) : countSep (a :: t) = countSep t := by
  cases t with
  | nil => rfl
  | cons b t' =>
    refine countSep_cons2_neg t' ?_
    rintro ⟨ha, hb⟩
    exact h ⟨ha, by simp [hb]⟩

theorem splitSep_cons_of {a : Char} {t : List Char}
    (h : ¬ (a = '\n' ∧ t.head? = some '\n')) :
    splitSep (a :: t) = (a :: (splitSep t).headD []) :: (splitSep t).tail := by
  cases t with
  | nil => rfl
  | cons b t' =>
    refine splitSep_cons2_neg t' ?_
    rintro ⟨ha, hb⟩
    exact h ⟨ha, by simp [hb]⟩

theorem countSep_passthrough {e : List Char} (t : List Char)
    (h2 : hasTwoNL e = false) (hend : e.getLast? ≠ some '\n') :
    countSep (e ++ t) = countSep t := by
  induction e with
  | nil => rfl
  | cons a e' ih =>
    obtain ⟨he', hae'⟩ := hasTwoNL_cons_false h2
    have hstep : ¬ (a = '\n' ∧ (e' ++ t).head? = some '\n') := by
      rintro ⟨ha, hh⟩
      cases e' with
      | nil =>
        exact hend (by simp [ha])
      | cons b e'' =>
        simp only [List.cons_append, List.head?_cons, Option.some.injEq] at hh
        exact hae' ⟨ha, by simp [hh]⟩
    rw [List.cons_append, countSep_cons_eq_of hstep]
    cases e' with
    | nil => rfl
    | cons b e'' =>
      refine ih he' ?_
      rw [List.getLast?_cons_cons] at hend
      exact hend

theorem splitSep_passthrough {e : List Char} (t : List Char)
    (h2 : hasTwoNL e = false) (hend : e.getLast? ≠ some '\n') :
    splitSep (e ++ t) = (e ++ (splitSep t).headD []) :: (splitSep t).tail := by
  induction e with
  | nil =>
    rcases hsp : splitSep t with _ | ⟨hd, tl⟩
    · exact absurd hsp (splitSep_ne_nil t)
    · simp [hsp]
  | cons a e' ih =>
    obtain ⟨he', hae'⟩ := hasTwoNL_cons_false h2
    have hstep : ¬ (a = '\n' ∧ (e' ++ t).head? = some '\n') := by
      rintro ⟨ha, hh⟩
      cases e' with
      | nil =>
        exact hend (by simp [ha])
      | cons b e'' =>
        simp only [List.cons_append, List.head?_cons, Option.some.injEq] at hh
        exact hae' ⟨ha, by simp [hh]⟩
    rw [List.cons_append, splitSep_cons_of hstep]
    cases e' with
    | nil => simp
    | cons b e'' =>
      rw [ih he' (by rw [List.getLast?_cons_cons] at hend; exact hend)]
      simp

theorem splitSep_append_sep {e : List Char} (t : List Char)
    (h2 : hasTwoNL e = false) (hend : e.getLast? ≠ some '\n') :
    splitSep (e ++ '\n' :: '\n' :: t) = e :: splitSep t := by
  rw [splitSep_passthrough ('\n' :: '\n' :: t) h2 hend,
    splitSep_cons2_pos t ⟨rfl, rfl⟩]
  simp

theorem countSep_append_sep {e : List Char} (t : List Char)
    (h2 : hasTwoNL e = false) (hend : e.getLast? ≠ some '\n') :
    countSep (e ++ '\n' :: '\n' :: t) = countSep t + 1 := by
  rw [countSep_passthrough ('\n' :: '\n' :: t) h2 hend, countSep_cons2_pos t ⟨rfl, rfl⟩]

theorem splitSep_head_shape (b : Char) (t : List Char) :
    (splitSep (b :: t)).headD [] = [] ∨ ((splitSep (b :: t)).headD []).head? = some b := by
  cases t with
  | nil => right; rfl
  | cons c t' =>
    by_cases hbc : b = '\n' ∧ c = '\n'
    · left
      rw [splitSep_cons2_pos t' hbc]
      rfl
    · right
      rw [splitSep_cons2_neg t' hbc]
      rfl

theorem splitSep_head_nil_imp (b : Char) (t : List Char)
    (h : (splitSep (b :: t)).headD [] = []) : b = '\n' := by
  cases t with
  | nil => simp [splitSep] at h
  | cons c t' =>
    by_cases hbc : b = '\n' ∧ c = '\n'
    · exact hbc.1
    · rw [splitSep_cons2_neg t' hbc] at h
      simp at h

theorem splitSep_dropLast_inv (s : List Char) :
    ∀ e ∈ (splitSep s).dropLast, hasTwoNL e = false ∧ e.getLast? ≠ some '\n' := by
  induction s using splitSep.induct with
  | case1 => simp [splitSep]
  | case2 c => simp [splitSep]
  | case3 a b t hab ih =>
    rw [splitSep_cons2_pos t hab,
      List.dropLast_cons_of_ne_nil (splitSep_ne_nil t)]
    intro e he
    rcases List.mem_cons.mp he with he | he
    · subst he
      exact ⟨rfl, by simp⟩
    · exact ih e he
  | case4 a b t hab p ps heq ih =>
    rw [splitSep_cons2_neg t hab, heq]
    simp only [List.headD_cons, List.tail_cons]
    rw [heq] at ih
    intro e he
    cases ps with
    | nil => simp at he
    | cons q qs =>
      rw [List.dropLast_cons_of_ne_nil (by simp)] at he
      rw [List.dropLast_cons_of_ne_nil (by simp)] at ih
      rcases List.mem_cons.mp he with he | he
      · subst he
        obtain ⟨hp2, hpe⟩ := ih p (List.mem_cons_self p _)
        constructor
        · refine hasTwoNL_cons_false_intro ?_ hp2
          rintro ⟨ha, hh⟩
          rcases splitSep_head_shape b t with hshape | hshape
          · rw [heq] at hshape
            simp only [List.headD_cons] at hshape
            subst hshape
            simp at hh
          · rw [heq] at hshape
            simp only [List.headD_cons] at hshape
            rw [hshape] at hh
            simp only [Option.some.injEq] at hh
            exact hab ⟨ha, hh ▸ rfl⟩
        · cases p with
          | nil =>
            have hb : b = '\n' := by
              apply splitSep_head_nil_imp b t
              rw [heq]
              rfl
            have ha : a ≠ '\n' := fun ha => hab ⟨ha, hb⟩
            simp [ha]
          | cons pc pt =>
            rw [List.getLast?_cons_cons]
            exact hpe
      · obtain ⟨hq, hqs⟩ := ih e (List.mem_cons_of_mem p he)
        exact ⟨hq, hqs⟩
  | case5 a b t hab heq ih => exact absurd heq (splitSep_ne_nil (b :: t))

theorem countSep_joinSep : ∀ (l : List (List Char)), l ≠ [] →
    (∀ e ∈ l, hasTwoNL e = false ∧ e.getLast? ≠ some '\n') →
    countSep (joinSep l ++ ['\n']) + 1 = l.length := by
  intro l
  induction l with
  | nil => intro h; exact absurd rfl h
  | cons e l ih =>
    intro _ hinv
    cases l with
    | nil =>
      obtain ⟨h2, hend⟩ := hinv e (List.mem_cons_self e [])
      rw [show joinSep [e] = e from rfl, countSep_passthrough ['\n'] h2 hend]
      rfl
    | cons f l2 =>
      obtain ⟨h2, hend⟩ := hinv e (List.mem_cons_self e _)
      rw [show joinSep (e :: f :: l2) = e ++ '\n' :: '\n' :: joinSep (f :: l2) from rfl]
      rw [List.append_assoc]
      rw [countSep_passthrough _ h2 hend]
      simp only [List.cons_append]
      rw [countSep_cons2_pos (a := '\n') (b := '\n') (joinSep (f :: l2) ++ ['\n']) ⟨rfl, rfl⟩]
      have := ih (by simp) (fun x hx => hinv x (List.mem_cons_of_mem e hx))
      simp only [List.length_cons] at *
      omega

/- #### Hard-cap loop termination (claim C10) -/

theorem hardCap_measure_step (s : List Char)
    (h : 3 < (splitSep (stripL s)).length) :
    (splitSep (stripL (joinSep (splitSep (stripL s)).dropLast ++ ['\n']))).length
      < (splitSep (stripL s)).length := by
  have hlen : (splitSep (stripL s)).dropLast.length = (splitSep (stripL s)).length - 1 :=
    List.length_dropLast _
  have hnil : (splitSep (stripL s)).dropLast ≠ [] := by
    intro hc
    rw [hc] at hlen
    simp at hlen
    omega
  have hinv := splitSep_dropLast_inv (stripL s)
  have hcount := countSep_joinSep (splitSep (stripL s)).dropLast hnil hinv
  have h1 := length_splitSep (stripL (joinSep (splitSep (stripL s)).dropLast ++ ['\n']))
  have h2 := countSep_strip_le (joinSep (splitSep (stripL s)).dropLast ++ ['\n'])
  omega

theorem hardCapFuel_some (fuel : Nat) : ∀ s, (splitSep (stripL s)).length ≤ fuel →
    ∃ r, hardCapFuel fuel s = some r := by
  induction fuel with
  | zero =>
    intro s h
    have := splitSep_ne_nil (stripL s)
    have : 0 < (splitSep (stripL s)).length := List.length_pos.mpr this
    omega
  | succ fuel ih =>
    intro s h
    unfold hardCapFuel
    dsimp only
    split
    · split
      · exact ⟨s, rfl⟩
      · rename_i h1 h2
        apply ih
        have := hardCap_measure_step s (by omega)
        omega
    · exact ⟨s, rfl⟩

theorem hardCapFuel_post : ∀ (fuel : Nat) (s r : List Char), hardCapFuel fuel s = some r →
    wordCount r ≤ WORD_HARD_CAP ∨ (splitSep (stripL r)).length ≤ 3 := by
  intro fuel
  induction fuel with
  | zero =>
    intro s r h
    simp [hardCapFuel] at h
  | succ fuel ih =>
    intro s r h
    unfold hardCapFuel at h
    dsimp only at h
    split at h
    · split at h
      · rename_i h1 h2
        injection h with h
        subst h
        exact Or.inr h2
      · exact ih _ _ h
    · rename_i h1
      injection h with h
      subst h
      exact Or.inl (by omega)

/-- Claim C10: the hard-cap enforcement loop terminates on every script.
The fuelled embedding of the while loop, run with fuel equal to the number
of blank-line blocks of the stripped script, always returns (each
iteration strictly decreases the number of blocks, so that fuel is never
exhausted); hence the assembler is a total function of its inputs. -/
theorem C10_hard_cap_terminates (script : List Char) :
    (hardCapFuel (splitSep (stripL script)).length script).isSome = true := by
  obtain ⟨r, hr⟩ := hardCapFuel_some (splitSep (stripL script)).length script (le_refl _)
  rw [hr]
  rfl

/- #### Word-budget machinery (claim C2) -/

theorem lstrip_of_head_some {s : List Char} {c : Char} (h : s.head? = some c)
    (hc : pyWs c = false) : lstripL s = s := by
  cases s with
  | nil => simp at h
  | cons a t =>
    simp only [List.head?_cons, Option.some.injEq] at h
    subst h
    unfold lstripL
    rw [List.dropWhile_cons, if_neg (by simp [hc])]

theorem rstrip_prefix_head {q : List Char} (h : rstripL q ≠ []) :
    (rstripL q).head? = q.head? := by
  obtain ⟨w, hw, _⟩ := rstrip_decomp q
  conv_rhs => rw [hw]
  rw [List.head?_append]
  cases hh : (rstripL q).head? with
  | none => exact absurd (List.head?_eq_none_iff.mp hh) h
  | some c => rfl

theorem dropWhile_ne_nil_of_ink {x : List Char} (h : hasInk x) :
    x.dropWhile pyWs ≠ [] := by
  induction x with
  | nil => obtain ⟨c, hc, _⟩ := h; simp at hc
  | cons a t ih =>
    rw [List.dropWhile_cons]
    by_cases ha : pyWs a
    · rw [if_pos (by simp [ha])]
      obtain ⟨c, hc, hcw⟩ := h
      rcases List.mem_cons.mp hc with hc | hc
      · subst hc
        rw [ha] at hcw
        cases hcw
      · exact ih ⟨c, hc, hcw⟩
    · rw [if_neg (by simpa using ha)]
      simp

theorem rstrip_append_ink {q : List Char} (a : List Char) (h : hasInk q) :
    rstripL (a ++ q) = a ++ rstripL q := by
  unfold rstripL
  rw [List.reverse_append, List.dropWhile_append]
  have hne : q.reverse.dropWhile pyWs ≠ [] := by
    apply dropWhile_ne_nil_of_ink
    obtain ⟨c, hc, hcw⟩ := h
    exact ⟨c, List.mem_reverse.mpr hc, hcw⟩
  rw [if_neg (by simpa [List.isEmpty_iff] using hne)]
  rw [List.reverse_append, List.reverse_reverse]

theorem hasInk_rstrip {q : List Char} (h : hasInk q) : hasInk (rstripL q) := by
  obtain ⟨w, hw, hws⟩ := rstrip_decomp q
  obtain ⟨c, hc, hcw⟩ := h
  rw [hw] at hc
  rcases List.mem_append.mp hc with hc | hc
  · exact ⟨c, hc, hcw⟩
  · rw [hws c hc] at hcw
    cases hcw

theorem rstrip_ne_nil_of_ink {q : List Char} (h : hasInk q) : rstripL q ≠ [] := by
  obtain ⟨c, hc, _⟩ := hasInk_rstrip h
  intro hn
  rw [hn] at hc
  simp at hc

theorem dropWhile_all_ws {w : List Char} (h : ∀ c ∈ w, pyWs c = true) :
    w.dropWhile pyWs = [] := by
  induction w with
  | nil => rfl
  | cons a t ih =>
    rw [List.dropWhile_cons, if_pos (by simp [h a (List.mem_cons_self a t)])]
    exact ih (fun c hc => h c (List.mem_cons_of_mem a hc))

theorem rstrip_append_ws {w : List Char} (a : List Char) (h : ∀ c ∈ w, pyWs c = true) :
    rstripL (a ++ w) = rstripL a := by
  unfold rstripL
  rw [List.reverse_append, List.dropWhile_append]
  rw [if_pos]
  rw [List.isEmpty_iff]
  exact dropWhile_all_ws (fun c hc => h c (List.mem_reverse.mp hc))

theorem hasTwoNL_false_prefix : ∀ (x y : List Char), hasTwoNL (x ++ y) = false →
    hasTwoNL x = false := by
  intro x
  induction x using hasTwoNL.induct with
  | case1 => intro y h; rfl
  | case2 c => intro y h; rfl
  | case3 a b t ih =>
    intro y h
    rw [show (a :: b :: t) ++ y = a :: b :: (t ++ y) from rfl] at h
    rw [show hasTwoNL (a :: b :: (t ++ y))
        = ((a = '\n' && b = '\n') || hasTwoNL (b :: (t ++ y))) from rfl] at h
    simp only [Bool.or_eq_false_iff] at h
    rw [show hasTwoNL (a :: b :: t) = ((a = '\n' && b = '\n') || hasTwoNL (b :: t)) from rfl]
    simp only [Bool.or_eq_false_iff]
    exact ⟨h.1, ih y h.2⟩

theorem splitSep_single {t : List Char} (h : hasTwoNL t = false) : splitSep t = [t] := by
  induction t using splitSep.induct with
  | case1 => rfl
  | case2 c => rfl
  | case3 a b t hab ih =>
    rw [show hasTwoNL (a :: b :: t) = ((a = '\n' && b = '\n') || hasTwoNL (b :: t)) from rfl] at h
    simp only [Bool.or_eq_false_iff, Bool.and_eq_false_iff] at h
    rcases h.1 with h1 | h1 <;> simp_all [hab.1, hab.2]
  | case4 a b t hab p ps heq ih =>
    rw [splitSep_cons2_neg t hab, heq]
    rw [show hasTwoNL (a :: b :: t) = ((a = '\n' && b = '\n') || hasTwoNL (b :: t)) from rfl] at h
    simp only [Bool.or_eq_false_iff] at h
    have := ih h.2
    rw [heq] at this
    injection this with h1 h2
    subst h1
    subst h2
    rfl
  | case5 a b t hab heq ih => exact absurd heq (splitSep_ne_nil (b :: t))

theorem joinSep_cons_decomp (b : List Char) (bs : List (List Char)) :
    ∃ x, joinSep (b :: bs) = b ++ x := by
  cases bs with
  | nil => exact ⟨[], by simp [joinSep]⟩
  | cons f l => exact ⟨'\n' :: '\n' :: joinSep (f :: l), rfl⟩

theorem joinNL_cons_decomp (b : List Char) (bs : List (List Char)) :
    ∃ x, joinNL (b :: bs) = b ++ x := by
  cases bs with
  | nil => exact ⟨[], by simp [joinNL]⟩
  | cons f l => exact ⟨'\n' :: joinNL (f :: l), rfl⟩

theorem splitSep_two_blocks (p0 p1 Q : List Char)
    (h0two : hasTwoNL p0 = false) (h0end : p0.getLast? ≠ some '\n')
    (h1two : hasTwoNL p1 = false) (h1end : p1.getLast? ≠ some '\n')
    (hQ : hasInk Q)
    (hhead : ∃ c, p0.head? = some c ∧ pyWs c = false) :
    splitSep (stripL (p0 ++ '\n' :: '\n' :: (p1 ++ '\n' :: '\n' :: Q)))
      = p0 :: p1 :: splitSep (rstripL Q) := by
  obtain ⟨c, hc, hcw⟩ := hhead
  have hlstrip : lstripL (p0 ++ '\n' :: '\n' :: (p1 ++ '\n' :: '\n' :: Q))
      = p0 ++ '\n' :: '\n' :: (p1 ++ '\n' :: '\n' :: Q) := by
    apply lstrip_of_head_some _ hcw
    cases p0 with
    | nil => simp at hc
    | cons a t =>
      simp only [List.head?_cons, Option.some.injEq] at hc
      subst hc
      rfl
  have hassoc : p0 ++ '\n' :: '\n' :: (p1 ++ '\n' :: '\n' :: Q)
      = (p0 ++ ['\n', '\n'] ++ p1 ++ ['\n', '\n']) ++ Q := by
    simp [List.append_assoc]
  have hstrip : stripL (p0 ++ '\n' :: '\n' :: (p1 ++ '\n' :: '\n' :: Q))
      = p0 ++ '\n' :: '\n' :: (p1 ++ '\n' :: '\n' :: rstripL Q) := by
    unfold stripL
    rw [hlstrip, hassoc, rstrip_append_ink _ hQ]
    simp [List.append_assoc]
  rw [hstrip]
  rw [splitSep_append_sep _ h0two h0end, splitSep_append_sep _ h1two h1end]

theorem packLoop_extends (l : List (Nat × TopItem)) :
    ∀ lines, ∃ tl, packLoop lines l = lines ++ tl := by
  induction l with
  | nil => intro lines; exact ⟨[], by simp [packLoop]⟩
  | cons hd rest ih =>
    intro lines
    obtain ⟨idx, it⟩ := hd
    by_cases hc : WORD_TARGET < wordCount (joinNL lines ++ '\n' :: storyBlock idx it)
      ∧ 6 < lines.length
    · refine ⟨[], ?_⟩
      simp only [packLoop]
      rw [if_pos hc]
      simp
    · obtain ⟨tl, htl⟩ := ih (lines ++ [storyBlock idx it])
      refine ⟨storyBlock idx it :: tl, ?_⟩
      simp only [packLoop]
      rw [if_neg hc, htl, List.append_assoc]
      rfl

theorem build_script_packed (dl : List Char) (it : TopItem) (tops : List TopItem) :
    ∃ blocks, packLoop (headerLines dl) (enum1 1 (it :: tops))
      = headerLines dl ++ storyBlock 1 it :: blocks := by
  rw [show enum1 1 (it :: tops) = (1, it) :: enum1 2 tops from rfl]
  simp only [packLoop]
  rw [if_neg (by
    rintro ⟨-, h6⟩
    simp [headerLines] at h6)]
  obtain ⟨tl, htl⟩ := packLoop_extends (enum1 2 tops) (headerLines dl ++ [storyBlock 1 it])
  exact ⟨tl, by rw [htl, List.append_assoc]; rfl⟩

theorem joinNL_header_expand (dl b : List Char) (bs : List (List Char)) :
    joinNL (headerLines dl ++ b :: bs)
      = (("Power, Utilities & Infrastructure — Daily Brief (").data ++ dl ++ [')'])
        ++ '\n' :: '\n' ::
          ((("This is an automated, AI-generated audio briefing. Sources and links are in the show notes.").data)
            ++ '\n' :: '\n' :: joinNL (b :: bs)) := by
  rfl

theorem storyBlock_head (it : TopItem) :
    ∃ y, storyBlock 1 it = '1' :: y := by
  unfold storyBlock
  obtain ⟨x, hx⟩ := joinNL_cons_decomp
    ((toString 1).data ++ (". ").data ++ it.title ++ (" — ").data ++ it.source)
    [("Link: ").data ++ it.url, truncSummary it.summary, []]
  rw [hx, show (toString 1).data = ['1'] by decide]
  exact ⟨(". ").data ++ it.title ++ (" — ").data ++ it.source ++ x, by simp⟩

theorem build_script_inv (dl : List Char) (hdl : '\n' ∉ dl) (it : TopItem)
    (tops : List TopItem) :
    keepsThreeBlocks (joinNL (packLoop (headerLines dl) (enum1 1 (it :: tops)))) := by
  obtain ⟨blocks, hp⟩ := build_script_packed dl it tops
  rw [hp, joinNL_header_expand]
  obtain ⟨x, hx⟩ := joinNL_cons_decomp (storyBlock 1 it) blocks
  obtain ⟨y, hy⟩ := storyBlock_head it
  have hQhead : (joinNL (storyBlock 1 it :: blocks)).head? = some '1' := by
    rw [hx, hy]
    rfl
  have hQink : hasInk (joinNL (storyBlock 1 it :: blocks)) :=
    ⟨'1', List.mem_of_mem_head? hQhead, by decide⟩
  have h0two : hasTwoNL (("Power, Utilities & Infrastructure — Daily Brief (").data
      ++ dl ++ [')']) = false := by
    apply hasTwoNL_of_not_mem
    intro hm
    rcases List.mem_append.mp hm with hm | hm
    · rcases List.mem_append.mp hm with hm | hm
      · revert hm
        decide
      · exact hdl hm
    · simp at hm
  have h0end : ((("Power, Utilities & Infrastructure — Daily Brief (").data
      ++ dl ++ [')']).getLast? : Option Char) ≠ some '\n' := by
    rw [List.getLast?_concat]
    simp
  have h0head : ∃ c, ((("Power, Utilities & Infrastructure — Daily Brief (").data
      ++ dl ++ [')']).head? : Option Char) = some c ∧ pyWs c = false :=
    ⟨'P', rfl, by decide⟩
  have hsplit := splitSep_two_blocks
    ((("Power, Utilities & Infrastructure — Daily Brief (").data ++ dl ++ [')']))
    ((("This is an automated, AI-generated audio briefing. Sources and links are in the show notes.").data))
    (joinNL (storyBlock 1 it :: blocks))
    h0two h0end (by decide) (by decide) hQink h0head
  unfold keepsThreeBlocks
  rw [hsplit]
  have hrne : rstripL (joinNL (storyBlock 1 it :: blocks)) ≠ [] :=
    rstrip_ne_nil_of_ink hQink
  have hrhead : (rstripL (joinNL (storyBlock 1 it :: blocks))).head? = some '1' := by
    rw [rstrip_prefix_head hrne, hQhead]
  rcases hr : rstripL (joinNL (storyBlock 1 it :: blocks)) with _ | ⟨rc, rz⟩
  · exact absurd hr hrne
  · rw [hr] at hrhead
    simp only [List.head?_cons, Option.some.injEq] at hrhead
    subst hrhead
    rw [show ('1' :: rz) = ['1'] ++ rz from rfl,
      splitSep_passthrough rz (show hasTwoNL ['1'] = false by decide)
        (show (['1'] : List Char).getLast? ≠ some '\n' by decide)]
    refine ⟨_, _, ['1'] ++ (splitSep rz).headD [], (splitSep rz).tail, rfl, h0head, ?_, ?_⟩
    · exact ⟨'T', by decide, by decide⟩
    · exact ⟨'1', by simp, by decide⟩

theorem hardCap_step_inv (s : List Char) (hinv : keepsThreeBlocks s)
    (hgt : 3 < (splitSep (stripL s)).length) :
    keepsThreeBlocks (joinSep (splitSep (stripL s)).dropLast ++ ['\n']) := by
  obtain ⟨p0, p1, p2, rest, hsp, hh0, hi1, hi2⟩ := hinv
  rcases rest with _ | ⟨r, rs⟩
  · rw [hsp] at hgt
    simp at hgt
  · have hdrop : (splitSep (stripL s)).dropLast = p0 :: p1 :: p2 :: (r :: rs).dropLast := by
      rw [hsp]
      simp
    have hmem := splitSep_dropLast_inv (stripL s)
    rw [hdrop] at hmem
    have h1 := hmem p1 (by simp)
    have h2 := hmem p2 (by simp)
    have h0 := hmem p0 (by simp)
    rw [hdrop]
    obtain ⟨x, hx⟩ := joinSep_cons_decomp p2 ((r :: rs).dropLast)
    have hexp : joinSep (p0 :: p1 :: p2 :: (r :: rs).dropLast) ++ ['\n']
        = p0 ++ '\n' :: '\n' :: (p1 ++ '\n' :: '\n'
          :: (joinSep (p2 :: (r :: rs).dropLast) ++ ['\n'])) := by
      rw [show joinSep (p0 :: p1 :: p2 :: (r :: rs).dropLast)
          = p0 ++ '\n' :: '\n' :: joinSep (p1 :: p2 :: (r :: rs).dropLast) from rfl,
        show joinSep (p1 :: p2 :: (r :: rs).dropLast)
          = p1 ++ '\n' :: '\n' :: joinSep (p2 :: (r :: rs).dropLast) from rfl]
      simp [List.append_assoc]
    rw [hexp]
    have hQink : hasInk (joinSep (p2 :: (r :: rs).dropLast) ++ ['\n']) := by
      obtain ⟨c, hcm, hcw⟩ := hi2
      refine ⟨c, ?_, hcw⟩
      rw [hx]
      exact List.mem_append.mpr (Or.inl (List.mem_append.mpr (Or.inl hcm)))
    have hsplit2 := splitSep_two_blocks p0 p1 _ h0.1 h0.2 h1.1 h1.2 hQink hh0
    unfold keepsThreeBlocks
    rw [hsplit2]
    by_cases hXink : hasInk (x ++ ['\n'])
    · have hrw : rstripL (joinSep (p2 :: (r :: rs).dropLast) ++ ['\n'])
          = p2 ++ rstripL (x ++ ['\n']) := by
        rw [hx, List.append_assoc]
        exact rstrip_append_ink p2 hXink
      rw [hrw, splitSep_passthrough _ h2.1 h2.2]
      refine ⟨_, _, _, _, rfl, hh0, hi1, ?_⟩
      obtain ⟨c, hcm, hcw⟩ := hi2
      exact ⟨c, List.mem_append.mpr (Or.inl hcm), hcw⟩
    · have hallws : ∀ c ∈ x ++ ['\n'], pyWs c = true := by
        intro c hcm
        by_contra hcw
        exact hXink ⟨c, hcm, by simpa using hcw⟩
      have hrw : rstripL (joinSep (p2 :: (r :: rs).dropLast) ++ ['\n']) = rstripL p2 := by
        rw [hx, List.append_assoc]
        exact rstrip_append_ws p2 hallws
      have hp2pre : hasTwoNL (rstripL p2) = false := by
        obtain ⟨w, hw, -⟩ := rstrip_decomp p2
        refine hasTwoNL_false_prefix _ w ?_
        rw [← hw]
        exact h2.1
      rw [hrw, splitSep_single hp2pre]
      exact ⟨p0, p1, rstripL p2, [], rfl, hh0, hi1, hasInk_rstrip hi2⟩

theorem hardCapFuel_keeps : ∀ (fuel : Nat) (s r : List Char), hardCapFuel fuel s = some r →
    keepsThreeBlocks s → keepsThreeBlocks r := by
  intro fuel
  induction fuel with
  | zero =>
    intro s r h hk
    simp [hardCapFuel] at h
  | succ fuel ih =>
    intro s r h hk
    unfold hardCapFuel at h
    dsimp only at h
    split at h
    · split at h
      · injection h with h
        subst h
        exact hk
      · rename_i h1 h2
        exact ih _ _ h (hardCap_step_inv s hk (by omega))
    · injection h with h
      subst h
      exact hk

theorem wordCountF_irrel : ∀ (f1 f2 : Nat) (s : List Char), s.length ≤ f1 → s.length ≤ f2 →
    wordCountF f1 s = wordCountF f2 s := by
  intro f1
  induction f1 with
  | zero =>
    intro f2 s h1 h2
    have hs : s = [] := List.length_eq_zero.mp (Nat.le_zero.mp h1)
    subst hs
    cases f2 <;> rfl
  | succ f1 ih =>
    intro f2 s h1 h2
    cases s with
    | nil => cases f2 <;> rfl
    | cons c t =>
      cases f2 with
      | zero => simp at h2
      | succ f2 =>
        simp only [wordCountF]
        have ht1 : t.length ≤ f1 := by simpa using h1
        have ht2 : t.length ≤ f2 := by simpa using h2
        by_cases hc : wordChar c = true
        · rw [if_pos hc, if_pos hc]
          have hd1 : (t.dropWhile wordChar).length ≤ f1 :=
            le_trans (List.dropWhile_sublist wordChar).length_le ht1
          have hd2 : (t.dropWhile wordChar).length ≤ f2 :=
            le_trans (List.dropWhile_sublist wordChar).length_le ht2
          rw [ih f2 _ hd1 hd2]
        · rw [if_neg hc, if_neg hc]
          exact ih f2 t ht1 ht2

theorem wordCount_cons_word {c : Char} (t : List Char) (hc : wordChar c = true) :
    wordCount (c :: t) = 1 + wordCount (t.dropWhile wordChar) := by
  unfold wordCount
  rw [List.length_cons]
  simp only [wordCountF]
  rw [if_pos hc]
  congr 1
  exact wordCountF_irrel t.length (t.dropWhile wordChar).length (t.dropWhile wordChar)
    (List.dropWhile_sublist wordChar).length_le (le_refl _)

theorem wordCount_cons_nonword {c : Char} (t : List Char) (hc : wordChar c = false) :
    wordCount (c :: t) = wordCount t := by
  unfold wordCount
  rw [List.length_cons]
  simp only [wordCountF]
  rw [if_neg (by simp [hc])]

theorem wc_dw_le (y : List Char) : wordCount y ≤ 1 + wordCount (y.dropWhile wordChar) := by
  cases y with
  | nil => exact Nat.zero_le _
  | cons d u =>
    by_cases hd : wordChar d = true
    · rw [wordCount_cons_word u hd, List.dropWhile_cons, if_pos hd]
    · have hd' : wordChar d = false := by simpa using hd
      rw [List.dropWhile_cons, if_neg (by simp [hd']), wordCount_cons_nonword u hd']
      have := wordCount_cons_nonword u hd'
      omega

theorem wc_ge_right : ∀ (n : Nat) (x y : List Char), x.length ≤ n →
    wordCount y ≤ wordCount (x ++ y) := by
  intro n
  induction n with
  | zero =>
    intro x y h
    have hx : x = [] := List.length_eq_zero.mp (Nat.le_zero.mp h)
    subst hx
    simp
  | succ n ih =>
    intro x y h
    cases x with
    | nil => simp
    | cons c t =>
      have ht : t.length ≤ n := by simpa using h
      by_cases hc : wordChar c = true
      · rw [show (c :: t) ++ y = c :: (t ++ y) from rfl, wordCount_cons_word _ hc,
          List.dropWhile_append]
        by_cases he : (t.dropWhile wordChar).isEmpty
        · rw [if_pos he]
          exact wc_dw_le y
        · rw [if_neg he]
          have hle : (t.dropWhile wordChar).length ≤ n :=
            le_trans (List.dropWhile_sublist wordChar).length_le ht
          have := ih (t.dropWhile wordChar) y hle
          omega
      · have hc' : wordChar c = false := by simpa using hc
        rw [show (c :: t) ++ y = c :: (t ++ y) from rfl, wordCount_cons_nonword _ hc']
        exact ih t y ht

theorem wc_ge_left : ∀ (n : Nat) (x y : List Char), x.length ≤ n →
    wordCount x ≤ wordCount (x ++ y) := by
  intro n
  induction n with
  | zero =>
    intro x y h
    have hx : x = [] := List.length_eq_zero.mp (Nat.le_zero.mp h)
    subst hx
    exact Nat.zero_le _
  | succ n ih =>
    intro x y h
    cases x with
    | nil => exact Nat.zero_le _
    | cons c t =>
      have ht : t.length ≤ n := by simpa using h
      by_cases hc : wordChar c = true
      · rw [wordCount_cons_word _ hc, show (c :: t) ++ y = c :: (t ++ y) from rfl,
          wordCount_cons_word _ hc, List.dropWhile_append]
        by_cases he : (t.dropWhile wordChar).isEmpty
        · rw [if_pos he]
          have hemp : t.dropWhile wordChar = [] := List.isEmpty_iff.mp he
          rw [hemp]
          have h0 : wordCount ([] : List Char) = 0 := rfl
          omega
        · rw [if_neg he]
          have hle : (t.dropWhile wordChar).length ≤ n :=
            le_trans (List.dropWhile_sublist wordChar).length_le ht
          have := ih (t.dropWhile wordChar) y hle
          omega
      · have hc' : wordChar c = false := by simpa using hc
        rw [wordCount_cons_nonword _ hc', show (c :: t) ++ y = c :: (t ++ y) from rfl,
          wordCount_cons_nonword _ hc']
        exact ih t y ht

theorem wordCount_le_append_left (x y : List Char) : wordCount x ≤ wordCount (x ++ y) :=
  wc_ge_left x.length x y (le_refl _)

theorem wordCount_le_append_right (x y : List Char) : wordCount y ≤ wordCount (x ++ y) :=
  wc_ge_right x.length x y (le_refl _)

theorem wc_replicate : ∀ n : Nat,
    wordCount ((List.replicate n ('w' :: ' ' :: [])).flatten) = n := by
  intro n
  induction n with
  | zero => rfl
  | succ n ih =>
    rw [List.replicate_succ, List.flatten_cons]
    rw [show ('w' :: ' ' :: []) ++ (List.replicate n ('w' :: ' ' :: [])).flatten
        = 'w' :: ' ' :: (List.replicate n ('w' :: ' ' :: [])).flatten from rfl]
    rw [wordCount_cons_word _ (by decide)]
    rw [show ((' ' :: (List.replicate n ('w' :: ' ' :: [])).flatten).dropWhile wordChar)
        = ' ' :: (List.replicate n ('w' :: ' ' :: [])).flatten from rfl]
    rw [wordCount_cons_nonword _ (by decide), ih]
    omega

theorem wc_hugeTitle : wordCount hugeTitle = 2250 := wc_replicate 2250

theorem hugeTitle_mem : ∀ c ∈ hugeTitle, c = 'w' ∨ c = ' ' := by
  intro c hc
  obtain ⟨m, hm, hcm⟩ := List.mem_flatten.mp hc
  rw [List.eq_of_mem_replicate hm] at hcm
  simpa using hcm

theorem getLast?_not_nl_of_not_mem {a : List Char} (ha : '\n' ∉ a) :
    a.getLast? ≠ some '\n' := by
  rcases List.eq_nil_or_concat a with rfl | ⟨as, c, rfl⟩
  · simp
  · rw [List.concat_eq_append, List.getLast?_concat]
    intro hc
    simp only [Option.some.injEq] at hc
    subst hc
    exact ha (by simp)

theorem joinNL_single (e : List Char) : joinNL [e] = e := rfl

theorem hasTwoNL_line_cons {a b : List Char} (ha : '\n' ∉ a)
    (hb2 : hasTwoNL b = false) (hbh : b.head? ≠ some '\n') :
    hasTwoNL (a ++ '\n' :: b) = false := by
  have hx : hasTwoNL (a ++ ['\n']) = false :=
    hasTwoNL_append_false (hasTwoNL_of_not_mem ha) rfl
      (by
        rintro ⟨hl, -⟩
        exact getLast?_not_nl_of_not_mem ha hl)
  have hall := hasTwoNL_append_false hx hb2
    (by
      rintro ⟨-, hh⟩
      exact hbh hh)
  rw [show a ++ '\n' :: b = (a ++ ['\n']) ++ b from by simp]
  exact hall

/-- Claim C2 (amended): the assembler's word budget. For every date label
free of newlines and every nonempty top-story list, the built script either
has word count at most WORD_HARD_CAP or the hard-cap loop has stopped at
its three-block floor; and the stripped script always splits into at least
three blank-line blocks (header, disclaimer and at least one story block),
so a story block survives even when that story alone exceeds the soft
target.  The unconditional cap asserted by the spec is refuted by
C2_hard_cap_exceeded_ce. -/
theorem C2_word_budget (date_label : List Char) (hdl : '\n' ∉ date_label)
    (it : TopItem) (tops : List TopItem) :
    (wordCount (build_script date_label (it :: tops)) ≤ WORD_HARD_CAP
      ∨ (splitSep (stripL (build_script date_label (it :: tops)))).length ≤ 3)
    ∧ 3 ≤ (splitSep (stripL (build_script date_label (it :: tops)))).length := by
  have hinv := build_script_inv date_label hdl it tops
  obtain ⟨r, hr⟩ := hardCapFuel_some
    (splitSep (stripL (joinNL (packLoop (headerLines date_label)
      (enum1 1 (it :: tops)))))).length
    (joinNL (packLoop (headerLines date_label) (enum1 1 (it :: tops)))) (le_refl _)
  have hbs : build_script date_label (it :: tops) = r := by
    unfold build_script hard_cap
    rw [hr]
    rfl
  rw [hbs]
  refine ⟨hardCapFuel_post _ _ _ hr, ?_⟩
  obtain ⟨p0, p1, p2, rest, hsp, -, -, -⟩ := hardCapFuel_keeps _ _ _ hr hinv
  rw [hsp, List.length_cons, List.length_cons, List.length_cons]
  omega

theorem C2_word_budget_witness :
    '\n' ∉ ("2026-01-01").data
    ∧ ((wordCount (build_script ("2026-01-01").data
          [⟨("Grid").data, ("Utility Dive").data, ("u").data, ("ok").data⟩])
            ≤ WORD_HARD_CAP
        ∨ (splitSep (stripL (build_script ("2026-01-01").data
          [⟨("Grid").data, ("Utility Dive").data, ("u").data, ("ok").data⟩]))).length ≤ 3)
      ∧ 3 ≤ (splitSep (stripL (build_script ("2026-01-01").data
          [⟨("Grid").data, ("Utility Dive").data, ("u").data, ("ok").data⟩]))).length) :=
  ⟨by decide, C2_word_budget ("2026-01-01").data (by decide)
    ⟨("Grid").data, ("Utility Dive").data, ("u").data, ("ok").data⟩ []⟩

/-- Claim C2 counterexample: the word cap is not unconditional.  A single
story whose title alone contains 2250 one-letter words yields a built
script whose word count exceeds WORD_HARD_CAP: the packing loop always
admits the first story, and the hard-cap loop stops at its three-block
floor (header, disclaimer, story) without trimming inside a block. -/
theorem C2_hard_cap_exceeded_ce :
    WORD_HARD_CAP < wordCount (build_script ("2026-01-01").data
      [⟨hugeTitle, ("Utility Dive").data, ("u").data, ("s").data⟩]) := by
  set it : TopItem := ⟨hugeTitle, ("Utility Dive").data, ("u").data, ("s").data⟩ with hit
  have hL1 : '\n' ∉ ((toString 1).data ++ (". ").data ++ hugeTitle
      ++ (" — ").data ++ ("Utility Dive").data) := by
    intro hm
    simp only [List.mem_append] at hm
    rcases hm with ((((hm | hm) | hm) | hm) | hm)
    · exact absurd hm (by decide)
    · exact absurd hm (by decide)
    · rcases hugeTitle_mem '\n' hm with h | h
      · exact absurd h (by decide)
      · exact absurd h (by decide)
    · exact absurd hm (by decide)
    · exact absurd hm (by decide)
  have htr : truncSummary (("s").data) = ['s'] := by decide
  have hSB : storyBlock 1 it
      = (((toString 1).data ++ (". ").data ++ hugeTitle ++ (" — ").data
          ++ ("Utility Dive").data)
          ++ '\n' :: ((("Link: ").data ++ ("u").data) ++ ['\n']))
        ++ (['s'] ++ ['\n']) := by
    rw [hit]
    simp [storyBlock, joinNL, htr, List.append_assoc]
  have hpack : packLoop (headerLines (("2026-01-01").data)) (enum1 1 [it])
      = headerLines (("2026-01-01").data) ++ [storyBlock 1 it] := by
    rw [show enum1 1 [it] = [(1, it)] from rfl]
    simp only [packLoop]
    rw [if_neg (by
      rintro ⟨-, h6⟩
      simp [headerLines] at h6)]
  have hrSB : rstripL (storyBlock 1 it)
      = (((toString 1).data ++ (". ").data ++ hugeTitle ++ (" — ").data
          ++ ("Utility Dive").data)
          ++ '\n' :: ((("Link: ").data ++ ("u").data) ++ ['\n'])) ++ ['s'] := by
    rw [hSB, rstrip_append_ink _ ⟨'s', by decide, by decide⟩,
      show rstripL (['s'] ++ ['\n']) = ['s'] from by decide]
  have h2SB : hasTwoNL (rstripL (storyBlock 1 it)) = false := by
    rw [hrSB, show (((toString 1).data ++ (". ").data ++ hugeTitle ++ (" — ").data
          ++ ("Utility Dive").data)
          ++ '\n' :: ((("Link: ").data ++ ("u").data) ++ ['\n'])) ++ ['s']
        = ((toString 1).data ++ (". ").data ++ hugeTitle ++ (" — ").data
          ++ ("Utility Dive").data)
          ++ '\n' :: (((("Link: ").data ++ ("u").data) ++ ['\n']) ++ ['s']) from by
        simp [List.append_assoc]]
    exact hasTwoNL_line_cons hL1 (by decide) (by decide)
  have hQink : hasInk (joinNL [storyBlock 1 it]) := by
    obtain ⟨y, hy⟩ := storyBlock_head it
    rw [joinNL_single, hy]
    exact ⟨'1', List.mem_cons_self _ _, by decide⟩
  have hsplit := splitSep_two_blocks
    ((("Power, Utilities & Infrastructure — Daily Brief (").data
      ++ ("2026-01-01").data ++ [')']))
    ((("This is an automated, AI-generated audio briefing. Sources and links are in the show notes.").data))
    (joinNL [storyBlock 1 it])
    (by decide) (by decide) (by decide) (by decide) hQink ⟨'P', by decide, by decide⟩
  have hparts : splitSep (stripL (joinNL (headerLines (("2026-01-01").data)
        ++ [storyBlock 1 it])))
      = [(("Power, Utilities & Infrastructure — Daily Brief (").data
          ++ ("2026-01-01").data ++ [')']),
         (("This is an automated, AI-generated audio briefing. Sources and links are in the show notes.").data),
         rstripL (storyBlock 1 it)] := by
    rw [joinNL_header_expand, hsplit, joinNL_single, splitSep_single h2SB]
  have hform : joinNL (headerLines (("2026-01-01").data) ++ [storyBlock 1 it])
      = ((("Power, Utilities & Infrastructure — Daily Brief (").data
          ++ ("2026-01-01").data ++ [')']
          ++ '\n' :: '\n' ::
            ((("This is an automated, AI-generated audio briefing. Sources and links are in the show notes.").data)
              ++ '\n' :: '\n' :: ((toString 1).data ++ (". ").data)))
        ++ (hugeTitle ++ ((" — ").data ++ ("Utility Dive").data
          ++ '\n' :: ((("Link: ").data ++ ("u").data) ++ '\n' :: (['s'] ++ ['\n']))))) := by
    rw [joinNL_header_expand, joinNL_single, hSB]
    simp [List.append_assoc]
  have hwc : WORD_HARD_CAP < wordCount (joinNL (headerLines (("2026-01-01").data)
      ++ [storyBlock 1 it])) := by
    rw [hform]
    refine lt_of_lt_of_le ?_ (le_trans (wordCount_le_append_left hugeTitle _)
      (wordCount_le_append_right _ _))
    rw [wc_hugeTitle]
    decide
  have hfuel : hardCapFuel (splitSep (stripL (joinNL (headerLines (("2026-01-01").data)
        ++ [storyBlock 1 it])))).length
      (joinNL (headerLines (("2026-01-01").data) ++ [storyBlock 1 it]))
      = some (joinNL (headerLines (("2026-01-01").data) ++ [storyBlock 1 it])) := by
    rw [hparts]
    show hardCapFuel (2 + 1) _ = _
    simp only [hardCapFuel]
    rw [if_pos hwc]
    rw [hparts]
    rw [if_pos (by simp)]
  have hbuild : build_script (("2026-01-01").data) [it]
      = joinNL (headerLines (("2026-01-01").data) ++ [storyBlock 1 it]) := by
    unfold build_script
    rw [hpack]
    unfold hard_cap
    rw [hfuel]
    rfl
  rw [hbuild]
  exact hwc

end PUD
